import Mathlib

set_option linter.unusedVariables false

namespace RawNbt

/-- One decoding error kind of the Rust `ParseError` enum. `ReadError` wraps a
non-EOF I/O failure; a pure in-memory byte source never produces it. -/
inductive ParseError where
  | UnexpectedEnd
  | InvalidUTF8
  | UnknownTag
  | ReadError
deriving DecidableEq, Repr

/-- The tag enumeration, the Rust `Type` enum (that name is reserved in Lean). -/
inductive Ty where
  | End
  | Byte
  | Short
  | Int
  | Long
  | Float
  | Double
  | ByteArray
  | Str
  | List
  | Compound
  | IntArray
  | LongArray
deriving DecidableEq, Repr

/-- `Type::try_from`: tag bytes 0..12 map to the thirteen types, all else is `UnknownTag`. -/
def Ty.tryFrom (b : Nat) : Except ParseError Ty :=
  match b with
  | 0 => .ok .End
  | 1 => .ok .Byte
  | 2 => .ok .Short
  | 3 => .ok .Int
  | 4 => .ok .Long
  | 5 => .ok .Float
  | 6 => .ok .Double
  | 7 => .ok .ByteArray
  | 8 => .ok .Str
  | 9 => .ok .List
  | 10 => .ok .Compound
  | 11 => .ok .IntArray
  | 12 => .ok .LongArray
  | _ => .error .UnknownTag

/-- A Rust `String` is modelled by its UTF-8 byte sequence. -/
abbrev RStr := List Nat

/-- The `Value` enum. `f32`/`f64` leaves are kept as their IEEE-754 bit
patterns (the parser only transports bits, it never computes with floats). -/
inductive Value where
  | Byte (v : Int)
  | Short (v : Int)
  | Int (v : Int)
  | Long (v : Int)
  | Float (bits : Nat)
  | Double (bits : Nat)
  | ByteArray (a : List Int)
  | Str (s : RStr)
  | Compound (c : List (RStr × Value))
  | IntArray (a : List Int)
  | LongArray (a : List Int)
  | EndList
  | EmptyByteList
  | ByteList (l : List Int)
  | ShortList (l : List Int)
  | IntList (l : List Int)
  | LongList (l : List Int)
  | FloatList (l : List Nat)
  | DoubleList (l : List Nat)
  | ByteArrayList (l : List (List Int))
  | StrList (l : List RStr)
  | ListList (l : List Value)
  | CompoundList (l : List (List (RStr × Value)))
  | IntArrayList (l : List (List Int))
  | LongArrayList (l : List (List Int))

/-- `type Compound = BTreeMap<String, Value>`: modelled as an association list
kept sorted by key, which is exactly the iteration order of a `BTreeMap`. -/
abbrev Compound := List (RStr × Value)

/-- Byte-wise lexicographic order on strings: the `Ord` instance of Rust `String`. -/
def strLt : RStr → RStr → Bool
  | [], [] => false
  | [], _ :: _ => true
  | _ :: _, [] => false
  | a :: as, b :: bs => decide (a < b) || (decide (a = b) && strLt as bs)

/-- `BTreeMap::insert` on the sorted association list: replaces on equal key. -/
def Compound.insert (k : RStr) (v : Value) : Compound → Compound
  | [] => [(k, v)]
  | (k2, v2) :: tl =>
    if strLt k k2 then (k, v) :: (k2, v2) :: tl
    else if k = k2 then (k, v) :: tl
    else (k2, v2) :: Compound.insert k v tl

/-- `Read::read_exact` over an in-memory byte list: yields exactly `n` bytes or
fails with EOF, which `From<io::Error>` turns into `UnexpectedEnd`. -/
def readExact (n : Nat) (input : List Nat) : Except ParseError (List Nat × List Nat) :=
  if n ≤ input.length then .ok (input.take n, input.drop n) else .error .UnexpectedEnd

/-- Big-endian value of a byte list (`uN::from_be_bytes`). -/
def beNat (bs : List Nat) : Nat := bs.foldl (fun a b => a * 256 + b) 0

/-- Two's-complement reading of a `w`-byte unsigned value (`iN::from_be_bytes`). -/
def signed (w : Nat) (u : Nat) : Int :=
  if u < 2 ^ (8 * w - 1) then (u : Int) else (u : Int) - 2 ^ (8 * w)

/-- Read `w` big-endian bytes as an unsigned value (the bit pattern reads
`u32::from_be_bytes` / `u64::from_be_bytes` used by `read_float` / `read_double`). -/
def readUnsigned (w : Nat) (input : List Nat) : Except ParseError (Nat × List Nat) :=
  match readExact w input with
  | .error e => .error e
  | .ok (bs, r) => .ok (beNat bs, r)

/-- Read `w` big-endian bytes as a signed value (`iN::from_be_bytes`). -/
def readSigned (w : Nat) (input : List Nat) : Except ParseError (Int × List Nat) :=
  match readExact w input with
  | .error e => .error e
  | .ok (bs, r) => .ok (signed w (beNat bs), r)

/-- `Parser::read_byte`. -/
def readByte : List Nat → Except ParseError (Int × List Nat) := readSigned 1

/-- `Parser::read_short`. -/
def readShort : List Nat → Except ParseError (Int × List Nat) := readSigned 2

/-- `Parser::read_int`. -/
def readInt : List Nat → Except ParseError (Int × List Nat) := readSigned 4

/-- `Parser::read_long`. -/
def readLong : List Nat → Except ParseError (Int × List Nat) := readSigned 8

/-- `Parser::read_float`: a 4-byte IEEE-754 bit pattern, kept as bits. -/
def readFloat : List Nat → Except ParseError (Nat × List Nat) := readUnsigned 4

/-- `Parser::read_double`: an 8-byte IEEE-754 bit pattern, kept as bits. -/
def readDouble : List Nat → Except ParseError (Nat × List Nat) := readUnsigned 8

/-- The Rust `as usize` cast of a signed value on a 64-bit platform:
reduction modulo `2^64`, so negative inputs become huge counts. -/
def usizeOf (i : Int) : Nat := (i % (2 ^ 64 : Int)).toNat

/-- Is `b` a UTF-8 continuation byte? -/
def isCont (b : Nat) : Bool := 0x80 ≤ b && b ≤ 0xBF

/-- UTF-8 validity of a byte sequence, the check done by `String::from_utf8`. -/
def validUtf8 : List Nat → Bool
  | [] => true
  | b :: rest =>
    if b ≤ 0x7F then validUtf8 rest
    else if b < 0xC2 then false
    else if b ≤ 0xDF then
      match rest with
      | c1 :: r => isCont c1 && validUtf8 r
      | [] => false
    else if b ≤ 0xEF then
      match rest with
      | c1 :: c2 :: r =>
        (if b = 0xE0 then decide (0xA0 ≤ c1) && decide (c1 ≤ 0xBF)
         else if b = 0xED then decide (0x80 ≤ c1) && decide (c1 ≤ 0x9F)
         else isCont c1) && isCont c2 && validUtf8 r
      | _ => false
    else if b ≤ 0xF4 then
      match rest with
      | c1 :: c2 :: c3 :: r =>
        (if b = 0xF0 then decide (0x90 ≤ c1) && decide (c1 ≤ 0xBF)
         else if b = 0xF4 then decide (0x80 ≤ c1) && decide (c1 ≤ 0x8F)
         else isCont c1) && isCont c2 && isCont c3 && validUtf8 r
      | _ => false
    else false

/-- `Parser::read_str`: a length from `read_short` cast `as usize`, that many
bytes, then the `String::from_utf8` validity check. -/
def readStr (input : List Nat) : Except ParseError (RStr × List Nat) :=
  match readShort input with
  | .error e => .error e
  | .ok (s, r1) =>
    match readExact (usizeOf s) r1 with
    | .error e => .error e
    | .ok (bs, r2) => if validUtf8 bs then .ok (bs, r2) else .error .InvalidUTF8

/-- `Parser::read_tag`: EOF at the tag boundary yields `None`, otherwise the
byte goes through `Type::try_from`. -/
def readTag (input : List Nat) : Except ParseError (Option Ty × List Nat) :=
  match input with
  | [] => .ok (none, [])
  | b :: rest =>
    match Ty.tryFrom b with
    | .error e => .error e
    | .ok t => .ok (some t, rest)

/-- The `for _ in 0..size { list.push(rd()?) }` loops shared by every array and
list reader: read `n` items sequentially with the element reader `rd`. -/
def readN {α : Type} (rd : List Nat → Except ParseError (α × List Nat)) :
    Nat → List Nat → Except ParseError (List α × List Nat)
  | 0, input => .ok ([], input)
  | n + 1, input =>
    match rd input with
    | .error e => .error e
    | .ok (x, r1) =>
      match readN rd n r1 with
      | .error e => .error e
      | .ok (xs, r2) => .ok (x :: xs, r2)

/-- `Parser::read_byte_array`: a 4-byte signed count cast `as usize`, then that
many bytes. -/
def readByteArray (input : List Nat) : Except ParseError (List Int × List Nat) :=
  match readInt input with
  | .error e => .error e
  | .ok (sz, r1) => readN readByte (usizeOf sz) r1

/-- `Parser::read_int_array`. -/
def readIntArray (input : List Nat) : Except ParseError (List Int × List Nat) :=
  match readInt input with
  | .error e => .error e
  | .ok (sz, r1) => readN readInt (usizeOf sz) r1

/-- `Parser::read_long_array`. -/
def readLongArray (input : List Nat) : Except ParseError (List Int × List Nat) :=
  match readInt input with
  | .error e => .error e
  | .ok (sz, r1) => readN readLong (usizeOf sz) r1

mutual

/-- `Parser::parse_value_with_tag`, with a fuel argument making the mutual
recursion (value / list / compound) well-founded; every recursive call passes
strictly smaller fuel, and running out of fuel reports `UnexpectedEnd` (with
the fuel budget `parse` supplies, fuel can only run out on inputs where the
Rust parser also fails from stream exhaustion). -/
def parseValueWithTag : Nat → Ty → List Nat → Except ParseError (Value × List Nat)
  | 0, _, _ => .error .UnexpectedEnd
  | _ + 1, .End, _ => .error .UnexpectedEnd
  | _ + 1, .Byte, input =>
    match readByte input with
    | .error e => .error e
    | .ok (v, r) => .ok (.Byte v, r)
  | _ + 1, .Short, input =>
    match readShort input with
    | .error e => .error e
    | .ok (v, r) => .ok (.Short v, r)
  | _ + 1, .Int, input =>
    match readInt input with
    | .error e => .error e
    | .ok (v, r) => .ok (.Int v, r)
  | _ + 1, .Long, input =>
    match readLong input with
    | .error e => .error e
    | .ok (v, r) => .ok (.Long v, r)
  | _ + 1, .Float, input =>
    match readFloat input with
    | .error e => .error e
    | .ok (v, r) => .ok (.Float v, r)
  | _ + 1, .Double, input =>
    match readDouble input with
    | .error e => .error e
    | .ok (v, r) => .ok (.Double v, r)
  | _ + 1, .ByteArray, input =>
    match readByteArray input with
    | .error e => .error e
    | .ok (a, r) => .ok (.ByteArray a, r)
  | _ + 1, .Str, input =>
    match readStr input with
    | .error e => .error e
    | .ok (s, r) => .ok (.Str s, r)
  | f + 1, .List, input => parseList f input
  | f + 1, .Compound, input =>
    match readCompoundAux f [] input with
    | .error e => .error e
    | .ok (c, r) => .ok (.Compound c, r)
  | _ + 1, .IntArray, input =>
    match readIntArray input with
    | .error e => .error e
    | .ok (a, r) => .ok (.IntArray a, r)
  | _ + 1, .LongArray, input =>
    match readLongArray input with
    | .error e => .error e
    | .ok (a, r) => .ok (.LongArray a, r)

/-- `Parser::parse_list`: element tag, 4-byte signed count cast `as usize`,
then the per-tag element loop.  A terminator element tag gives `EndList`; a
byte element tag with count zero gives `EmptyByteList`. -/
def parseList : Nat → List Nat → Except ParseError (Value × List Nat)
  | 0, _ => .error .UnexpectedEnd
  | f + 1, input =>
    match readTag input with
    | .error e => .error e
    | .ok (none, _) => .error .UnexpectedEnd
    | .ok (some t, r1) =>
      match readInt r1 with
      | .error e => .error e
      | .ok (sz, r2) =>
        let size := usizeOf sz
        match t with
        | .End => .ok (.EndList, r2)
        | .Byte =>
          if size = 0 then .ok (.EmptyByteList, r2)
          else
            match readN readByte size r2 with
            | .error e => .error e
            | .ok (l, r3) => .ok (.ByteList l, r3)
        | .Short =>
          match readN readShort size r2 with
          | .error e => .error e
          | .ok (l, r3) => .ok (.ShortList l, r3)
        | .Int =>
          match readN readInt size r2 with
          | .error e => .error e
          | .ok (l, r3) => .ok (.IntList l, r3)
        | .Long =>
          match readN readLong size r2 with
          | .error e => .error e
          | .ok (l, r3) => .ok (.LongList l, r3)
        | .Float =>
          match readN readFloat size r2 with
          | .error e => .error e
          | .ok (l, r3) => .ok (.FloatList l, r3)
        | .Double =>
          match readN readDouble size r2 with
          | .error e => .error e
          | .ok (l, r3) => .ok (.DoubleList l, r3)
        | .ByteArray =>
          match readN readByteArray size r2 with
          | .error e => .error e
          | .ok (l, r3) => .ok (.ByteArrayList l, r3)
        | .Str =>
          match readN readStr size r2 with
          | .error e => .error e
          | .ok (l, r3) => .ok (.StrList l, r3)
        | .List =>
          match parseListList f size r2 with
          | .error e => .error e
          | .ok (l, r3) => .ok (.ListList l, r3)
        | .Compound =>
          match parseCompoundList f size r2 with
          | .error e => .error e
          | .ok (l, r3) => .ok (.CompoundList l, r3)
        | .IntArray =>
          match readN readIntArray size r2 with
          | .error e => .error e
          | .ok (l, r3) => .ok (.IntArrayList l, r3)
        | .LongArray =>
          match readN readLongArray size r2 with
          | .error e => .error e
          | .ok (l, r3) => .ok (.LongArrayList l, r3)

/-- `Parser::parse_list_list`: the element loop of a list of lists. -/
def parseListList : Nat → Nat → List Nat → Except ParseError (List Value × List Nat)
  | 0, _, _ => .error .UnexpectedEnd
  | _ + 1, 0, input => .ok ([], input)
  | f + 1, n + 1, input =>
    match parseList f input with
    | .error e => .error e
    | .ok (v, r1) =>
      match parseListList f n r1 with
      | .error e => .error e
      | .ok (l, r2) => .ok (v :: l, r2)

/-- `Parser::parse_compound_list`: the element loop of a list of compounds. -/
def parseCompoundList : Nat → Nat → List Nat → Except ParseError (List Compound × List Nat)
  | 0, _, _ => .error .UnexpectedEnd
  | _ + 1, 0, input => .ok ([], input)
  | f + 1, n + 1, input =>
    match readCompoundAux f [] input with
    | .error e => .error e
    | .ok (c, r1) =>
      match parseCompoundList f n r1 with
      | .error e => .error e
      | .ok (l, r2) => .ok (c :: l, r2)

/-- The loop body of `Parser::read_compound` with its accumulated record:
entries until a terminator tag; EOF before the terminator is `UnexpectedEnd`. -/
def readCompoundAux : Nat → Compound → List Nat → Except ParseError (Compound × List Nat)
  | 0, _, _ => .error .UnexpectedEnd
  | f + 1, root, input =>
    match readTag input with
    | .error e => .error e
    | .ok (none, _) => .error .UnexpectedEnd
    | .ok (some t, r1) =>
      if t = .End then .ok (root, r1)
      else
        match readStr r1 with
        | .error e => .error e
        | .ok (name, r2) =>
          match parseValueWithTag f t r2 with
          | .error e => .error e
          | .ok (v, r3) => readCompoundAux f (Compound.insert name v root) r3

end

/-- `Parser::read_compound` starts its loop with an empty record. -/
def readCompound (fuel : Nat) (input : List Nat) : Except ParseError (Compound × List Nat) :=
  readCompoundAux fuel [] input

/-- The top-level loop of `Parser::parse` with its accumulated root record:
entries until EOF at a tag boundary, which is the normal termination. -/
def parseTopAux : Nat → Compound → List Nat → Except ParseError Compound
  | 0, _, _ => .error .UnexpectedEnd
  | f + 1, root, input =>
    match readTag input with
    | .error e => .error e
    | .ok (none, _) => .ok root
    | .ok (some t, r1) =>
      match readStr r1 with
      | .error e => .error e
      | .ok (name, r2) =>
        match parseValueWithTag f t r2 with
        | .error e => .error e
        | .ok (v, r3) => parseTopAux f (Compound.insert name v root) r3

/-- `Parser::parse`: the fuel budget `input.length + 1` dominates the number of
loop iterations and nesting levels any run over `input` can make, so it is
never the binding constraint on inputs the Rust parser accepts. -/
def parse (input : List Nat) : Except ParseError Value :=
  match parseTopAux (input.length + 1) [] input with
  | .error e => .error e
  | .ok c => .ok (.Compound c)

/-- The tag byte each `Value` variant carries on the wire (§4.2: every list
variant is written with the list tag 9). -/
def tagByte : Value → Nat
  | .Byte _ => 1
  | .Short _ => 2
  | .Int _ => 3
  | .Long _ => 4
  | .Float _ => 5
  | .Double _ => 6
  | .ByteArray _ => 7
  | .Str _ => 8
  | .Compound _ => 10
  | .IntArray _ => 11
  | .LongArray _ => 12
  | _ => 9

/-- The `Ty` each `Value` variant is dispatched from. -/
def tyOf : Value → Ty
  | .Byte _ => .Byte
  | .Short _ => .Short
  | .Int _ => .Int
  | .Long _ => .Long
  | .Float _ => .Float
  | .Double _ => .Double
  | .ByteArray _ => .ByteArray
  | .Str _ => .Str
  | .Compound _ => .Compound
  | .IntArray _ => .IntArray
  | .LongArray _ => .LongArray
  | _ => .List

/-- Is this variant one of the list family (decoded by `parse_list`)? -/
def isListVariant : Value → Bool
  | .Byte _ | .Short _ | .Int _ | .Long _ | .Float _ | .Double _
  | .ByteArray _ | .Str _ | .Compound _ | .IntArray _ | .LongArray _ => false
  | _ => true

/-- Modelled from the spec: `w` big-endian bytes of an unsigned value
(§4.2 "all multi-byte integers big-endian"), for the reference encoder. -/
def beBytes : Nat → Nat → List Nat
  | 0, _ => []
  | w + 1, n => beBytes w (n / 256) ++ [n % 256]

/-- Modelled from the spec: the reference encoder's `w`-byte big-endian
two's-complement encoding of a signed integer. -/
def encSigned (w : Nat) (i : Int) : List Nat := beBytes w ((i % ((2 : Int) ^ (8 * w))).toNat)

/-- Modelled from the spec: string payload, "2-byte unsigned length, then that
many UTF-8 bytes" (§4.2). -/
def encStr (s : RStr) : List Nat := beBytes 2 s.length ++ s

/-- Concatenate the encodings of a list of items (the reference encoder's
back-to-back element payloads). -/
def encList {α : Type} (f : α → List Nat) : List α → List Nat
  | [] => []
  | x :: tl => f x ++ encList f tl

/-- Modelled from the spec: byte-array payload, "a 4-byte signed length, then
that many elements" (§4.2). -/
def encByteArray (a : List Int) : List Nat :=
  encSigned 4 (a.length : Int) ++ encList (encSigned 1) a

/-- Modelled from the spec: int-array payload. -/
def encIntArray (a : List Int) : List Nat :=
  encSigned 4 (a.length : Int) ++ encList (encSigned 4) a

/-- Modelled from the spec: long-array payload. -/
def encLongArray (a : List Int) : List Nat :=
  encSigned 4 (a.length : Int) ++ encList (encSigned 8) a

mutual

/-- Modelled from the spec: the reference encoder for one payload, following
the wire grammar of §4.2 (the repository itself has no encoder). -/
def encodePayload : Value → List Nat
  | .Byte v => encSigned 1 v
  | .Short v => encSigned 2 v
  | .Int v => encSigned 4 v
  | .Long v => encSigned 8 v
  | .Float bits => beBytes 4 bits
  | .Double bits => beBytes 8 bits
  | .ByteArray a => encByteArray a
  | .Str s => encStr s
  | .Compound c => encEntries c ++ [0]
  | .IntArray a => encIntArray a
  | .LongArray a => encLongArray a
  | .EndList => 0 :: encSigned 4 0
  | .EmptyByteList => 1 :: encSigned 4 0
  | .ByteList l => 1 :: (encSigned 4 (l.length : Int) ++ encList (encSigned 1) l)
  | .ShortList l => 2 :: (encSigned 4 (l.length : Int) ++ encList (encSigned 2) l)
  | .IntList l => 3 :: (encSigned 4 (l.length : Int) ++ encList (encSigned 4) l)
  | .LongList l => 4 :: (encSigned 4 (l.length : Int) ++ encList (encSigned 8) l)
  | .FloatList l => 5 :: (encSigned 4 (l.length : Int) ++ encList (beBytes 4) l)
  | .DoubleList l => 6 :: (encSigned 4 (l.length : Int) ++ encList (beBytes 8) l)
  | .ByteArrayList l => 7 :: (encSigned 4 (l.length : Int) ++ encList encByteArray l)
  | .StrList l => 8 :: (encSigned 4 (l.length : Int) ++ encList encStr l)
  | .ListList l => 9 :: (encSigned 4 (l.length : Int) ++ encValues l)
  | .CompoundList l => 10 :: (encSigned 4 (l.length : Int) ++ encCompounds l)
  | .IntArrayList l => 11 :: (encSigned 4 (l.length : Int) ++ encList encIntArray l)
  | .LongArrayList l => 12 :: (encSigned 4 (l.length : Int) ++ encList encLongArray l)

/-- Modelled from the spec: a sequence of tagged entries — "1 tag byte, then a
length-prefixed UTF-8 name, then a payload" (§4.2). -/
def encEntries : List (RStr × Value) → List Nat
  | [] => []
  | (k, v) :: tl => (tagByte v :: (encStr k ++ encodePayload v)) ++ encEntries tl

/-- Element payloads of a list of lists, back to back. -/
def encValues : List Value → List Nat
  | [] => []
  | v :: tl => encodePayload v ++ encValues tl

/-- Element payloads of a list of compounds, back to back (each a
terminator-ended entry sequence). -/
def encCompounds : List (List (RStr × Value)) → List Nat
  | [] => []
  | c :: tl => (encEntries c ++ [0]) ++ encCompounds tl

end

/-- Strictly-ascending keys: the invariant `BTreeMap` iteration guarantees. -/
def sortedKeys : Compound → Bool
  | [] => true
  | (k, _) :: tl => tl.all (fun e => strLt k e.1) && sortedKeys tl

/-- Is a UTF-8 byte string representable and decodable as a name or string
payload: valid UTF-8 and shorter than `2^15` (the length survives the
`read_short`-then-`as usize` round through the decoder). -/
def wfStr (s : RStr) : Bool := validUtf8 s && decide (s.length < 2 ^ 15)

/-- Fits in `i8`. -/
def isI8 (i : Int) : Bool := decide (-128 ≤ i) && decide (i < 128)

/-- Fits in `i16`. -/
def isI16 (i : Int) : Bool := decide (-(2 ^ 15) ≤ i) && decide (i < 2 ^ 15)

/-- Fits in `i32`. -/
def isI32 (i : Int) : Bool := decide (-(2 ^ 31) ≤ i) && decide (i < 2 ^ 31)

/-- Fits in `i64`. -/
def isI64 (i : Int) : Bool := decide (-(2 ^ 63) ≤ i) && decide (i < 2 ^ 63)

/-- A length representable as a nonnegative `i32` count. -/
def wfLen (n : Nat) : Bool := decide (n < 2 ^ 31)

mutual

/-- A `Value` tree the Rust type system plus the wire format can actually
carry, in canonical decoded form: leaves fit their machine-integer widths,
float leaves are genuine bit patterns, strings are valid UTF-8 and short
enough for their length prefix, counts fit `i32`, compounds are sorted key maps,
list-of-list elements are themselves list variants, and no `ByteList` is
empty (the wire form with byte tag and count 0 decodes to `EmptyByteList`). -/
def wfValue : Value → Bool
  | .Byte v => isI8 v
  | .Short v => isI16 v
  | .Int v => isI32 v
  | .Long v => isI64 v
  | .Float bits => decide (bits < 2 ^ 32)
  | .Double bits => decide (bits < 2 ^ 64)
  | .ByteArray a => wfLen a.length && a.all isI8
  | .Str s => wfStr s
  | .Compound c => wfEntriesEach c && sortedKeys c
  | .IntArray a => wfLen a.length && a.all isI32
  | .LongArray a => wfLen a.length && a.all isI64
  | .EndList => true
  | .EmptyByteList => true
  | .ByteList l => !l.isEmpty && wfLen l.length && l.all isI8
  | .ShortList l => wfLen l.length && l.all isI16
  | .IntList l => wfLen l.length && l.all isI32
  | .LongList l => wfLen l.length && l.all isI64
  | .FloatList l => wfLen l.length && l.all (fun bits => decide (bits < 2 ^ 32))
  | .DoubleList l => wfLen l.length && l.all (fun bits => decide (bits < 2 ^ 64))
  | .ByteArrayList l => wfLen l.length && l.all (fun a => wfLen a.length && a.all isI8)
  | .StrList l => wfLen l.length && l.all wfStr
  | .ListList l => wfLen l.length && wfListElems l
  | .CompoundList l => wfLen l.length && wfComps l
  | .IntArrayList l => wfLen l.length && l.all (fun a => wfLen a.length && a.all isI32)
  | .LongArrayList l => wfLen l.length && l.all (fun a => wfLen a.length && a.all isI64)

/-- Every entry has a representable name and a well-formed value (no key-order
requirement; `sortedKeys` is checked separately). -/
def wfEntriesEach : List (RStr × Value) → Bool
  | [] => true
  | (k, v) :: tl => wfStr k && wfValue v && wfEntriesEach tl

/-- Elements of a list of lists: each must itself be a list variant. -/
def wfListElems : List Value → Bool
  | [] => true
  | v :: tl => isListVariant v && wfValue v && wfListElems tl

/-- Elements of a list of compounds: each a sorted, well-formed record. -/
def wfComps : List (List (RStr × Value)) → Bool
  | [] => true
  | c :: tl => wfEntriesEach c && sortedKeys c && wfComps tl

end

/-- Sequential `BTreeMap::insert` of a run of entries into an accumulated
record: what the `read_compound` / `parse` loops do with the entries they
decode, in decode order. -/
def foldIns (acc : Compound) (l : List (RStr × Value)) : Compound :=
  l.foldl (fun a e => Compound.insert e.1 e.2 a) acc

mutual

/-- No `ByteList` node anywhere in the tree has an empty element vector. -/
def noEmptyByteList : Value → Bool
  | .ByteList l => !l.isEmpty
  | .Compound c => noEmptyByteListEntries c
  | .ListList l => noEmptyByteListValues l
  | .CompoundList l => noEmptyByteListComps l
  | _ => true

/-- `noEmptyByteList` over a record's entries. -/
def noEmptyByteListEntries : List (RStr × Value) → Bool
  | [] => true
  | (_, v) :: tl => noEmptyByteList v && noEmptyByteListEntries tl

/-- `noEmptyByteList` over list-of-list elements. -/
def noEmptyByteListValues : List Value → Bool
  | [] => true
  | v :: tl => noEmptyByteList v && noEmptyByteListValues tl

/-- `noEmptyByteList` over list-of-compound elements. -/
def noEmptyByteListComps : List (List (RStr × Value)) → Bool
  | [] => true
  | c :: tl => noEmptyByteListEntries c && noEmptyByteListComps tl

end

/-! Basic properties of the fixed-width readers against the reference
encoder's byte productions. -/

theorem readExact_append (xs r : List Nat) : readExact xs.length (xs ++ r) = .ok (xs, r) := by
  simp [readExact]

theorem readExact_short (n : Nat) (input : List Nat) (h : input.length < n) :
    readExact n input = .error .UnexpectedEnd := by
  rw [readExact, if_neg (show ¬n ≤ input.length by omega)]

theorem beBytes_length (w n : Nat) : (beBytes w n).length = w := by
  induction w generalizing n with
  | zero => simp [beBytes]
  | succ w ih => simp [beBytes, ih]

theorem beNat_append_byte (l : List Nat) (b : Nat) : beNat (l ++ [b]) = beNat l * 256 + b := by
  simp [beNat, List.foldl_append]

theorem beNat_beBytes (w n : Nat) (h : n < 256 ^ w) : beNat (beBytes w n) = n := by
  induction w generalizing n with
  | zero =>
    simp only [pow_zero] at h
    simp [beBytes, beNat]
    omega
  | succ w ih =>
    rw [beBytes, beNat_append_byte, ih (n / 256) (Nat.div_lt_of_lt_mul (by rw [pow_succ] at h; omega))]
    omega

theorem encSigned_length (w : Nat) (i : Int) : (encSigned w i).length = w := beBytes_length ..

theorem cast_pow256 (w : Nat) : ((256 ^ w : Nat) : Int) = (2 : Int) ^ (8 * w) := by
  push_cast
  rw [show ((256 : Int)) = 2 ^ 8 by norm_num, ← pow_mul]

theorem readSigned_encSigned (w : Nat) (hw : 0 < w) (i : Int)
    (h1 : -(2 ^ (8 * w - 1)) ≤ i) (h2 : i < 2 ^ (8 * w - 1)) (r : List Nat) :
    readSigned w (encSigned w i ++ r) = .ok (i, r) := by
  have hstep : readExact w (beBytes w ((i % ((2 : Int) ^ (8 * w))).toNat) ++ r) =
      .ok (beBytes w ((i % ((2 : Int) ^ (8 * w))).toNat), r) := by
    have := readExact_append (beBytes w ((i % ((2 : Int) ^ (8 * w))).toNat)) r
    rwa [beBytes_length] at this
  have hKM : (2 : Int) ^ (8 * w) = 2 * 2 ^ (8 * w - 1) := by
    conv_lhs => rw [show 8 * w = (8 * w - 1) + 1 by omega]
    rw [pow_succ]
    ring
  have hKpos : (0 : Int) < 2 ^ (8 * w - 1) := by positivity
  have h256 : ((256 ^ w : Nat) : Int) = (2 : Int) ^ (8 * w) := cast_pow256 w
  have hK : ((2 ^ (8 * w - 1) : Nat) : Int) = (2 : Int) ^ (8 * w - 1) := by push_cast; ring
  rcases le_or_lt 0 i with hi | hi
  · have hmod : i % (2 : Int) ^ (8 * w) = i :=
      Int.emod_eq_of_lt hi (by rw [hKM]; linarith)
    have hu : i.toNat < 256 ^ w := by
      have hc : (i.toNat : Int) < ((256 ^ w : Nat) : Int) := by
        rw [Int.toNat_of_nonneg hi, h256, hKM]
        linarith
      exact_mod_cast hc
    have hpos : i.toNat < 2 ^ (8 * w - 1) := by
      have hc : (i.toNat : Int) < ((2 ^ (8 * w - 1) : Nat) : Int) := by
        rw [Int.toNat_of_nonneg hi, hK]
        exact h2
      exact_mod_cast hc
    rw [readSigned, encSigned, hstep]
    simp only []
    rw [hmod, beNat_beBytes _ _ hu, signed, if_pos hpos]
    simp only [Int.toNat_of_nonneg hi]
  · have h0 : (0 : Int) ≤ i + 2 ^ (8 * w) := by rw [hKM]; linarith
    have h1' : i + 2 ^ (8 * w) < 2 ^ (8 * w) := by linarith
    have hmod : i % (2 : Int) ^ (8 * w) = i + 2 ^ (8 * w) := by
      have hrw : (i + 2 ^ (8 * w)) % (2 : Int) ^ (8 * w) = i % (2 : Int) ^ (8 * w) := by
        have h' := @Int.add_mul_emod_self_left i ((2 : Int) ^ (8 * w)) 1
        rwa [mul_one] at h'
      rw [← hrw, Int.emod_eq_of_lt h0 h1']
    have hu : (i + 2 ^ (8 * w)).toNat < 256 ^ w := by
      have hc : ((i + 2 ^ (8 * w)).toNat : Int) < ((256 ^ w : Nat) : Int) := by
        rw [Int.toNat_of_nonneg h0, h256]
        linarith
      exact_mod_cast hc
    have hneg : ¬(i + 2 ^ (8 * w)).toNat < 2 ^ (8 * w - 1) := by
      intro hcon
      have hc : ((i + 2 ^ (8 * w)).toNat : Int) < ((2 ^ (8 * w - 1) : Nat) : Int) := by
        exact_mod_cast hcon
      rw [Int.toNat_of_nonneg h0, hK, hKM] at hc
      linarith
    rw [readSigned, encSigned, hstep]
    simp only []
    rw [hmod, beNat_beBytes _ _ hu, signed, if_neg hneg]
    rw [Int.toNat_of_nonneg h0]
    ring_nf

theorem readUnsigned_beBytes (w n : Nat) (h : n < 256 ^ w) (r : List Nat) :
    readUnsigned w (beBytes w n ++ r) = .ok (n, r) := by
  have hstep : readExact w (beBytes w n ++ r) = .ok (beBytes w n, r) := by
    have := readExact_append (beBytes w n) r
    rwa [beBytes_length] at this
  rw [readUnsigned, hstep]
  simp only []
  rw [beNat_beBytes _ _ h]

theorem readSigned_beBytes_small (w : Nat) (hw : 0 < w) (n : Nat) (h : n < 2 ^ (8 * w - 1))
    (r : List Nat) : readSigned w (beBytes w n ++ r) = .ok ((n : Int), r) := by
  have hK : ((2 ^ (8 * w - 1) : Nat) : Int) = (2 : Int) ^ (8 * w - 1) := by push_cast; ring
  have hKM : (2 : Int) ^ (8 * w) = 2 * 2 ^ (8 * w - 1) := by
    conv_lhs => rw [show 8 * w = (8 * w - 1) + 1 by omega]
    rw [pow_succ]
    ring
  have hKpos : (0 : Int) < 2 ^ (8 * w - 1) := by positivity
  have henc : encSigned w ((n : Nat) : Int) = beBytes w n := by
    rw [encSigned]
    congr 1
    have hlt : ((n : Nat) : Int) < (2 : Int) ^ (8 * w) := by
      rw [hKM]
      have : ((n : Nat) : Int) < ((2 ^ (8 * w - 1) : Nat) : Int) := by exact_mod_cast h
      rw [hK] at this
      linarith
    rw [Int.emod_eq_of_lt (by positivity) hlt]
    exact Int.toNat_natCast n
  have hnn : (0 : Int) ≤ (n : Int) := Int.natCast_nonneg n
  have hlt2 : ((n : Nat) : Int) < (2 : Int) ^ (8 * w - 1) := by
    have hc : ((n : Nat) : Int) < ((2 ^ (8 * w - 1) : Nat) : Int) := by exact_mod_cast h
    rwa [hK] at hc
  have := readSigned_encSigned w hw (n : Int) (by linarith) hlt2 r
  rwa [henc] at this

theorem readSigned_short_input (w : Nat) (input : List Nat) (h : input.length < w) :
    readSigned w input = .error .UnexpectedEnd := by
  rw [readSigned, readExact_short _ _ h]

theorem readUnsigned_short_input (w : Nat) (input : List Nat) (h : input.length < w) :
    readUnsigned w input = .error .UnexpectedEnd := by
  rw [readUnsigned, readExact_short _ _ h]

theorem usizeOf_natCast (n : Nat) (h : n < 2 ^ 64) : usizeOf (n : Int) = n := by
  have h64 : ((2 ^ 64 : Nat) : Int) = (2 : Int) ^ 64 := by push_cast; try ring
  rw [usizeOf]
  omega

theorem readByte_enc (i : Int) (h : isI8 i = true) (r : List Nat) :
    readByte (encSigned 1 i ++ r) = .ok (i, r) := by
  simp only [isI8, Bool.and_eq_true, decide_eq_true_eq] at h
  exact readSigned_encSigned 1 (by omega) i (by norm_num; omega) (by norm_num; omega) r

theorem readShort_enc (i : Int) (h : isI16 i = true) (r : List Nat) :
    readShort (encSigned 2 i ++ r) = .ok (i, r) := by
  simp only [isI16, Bool.and_eq_true, decide_eq_true_eq] at h
  exact readSigned_encSigned 2 (by omega) i (by norm_num; omega) (by norm_num; omega) r

theorem readInt_enc (i : Int) (h : isI32 i = true) (r : List Nat) :
    readInt (encSigned 4 i ++ r) = .ok (i, r) := by
  simp only [isI32, Bool.and_eq_true, decide_eq_true_eq] at h
  exact readSigned_encSigned 4 (by omega) i (by norm_num; omega) (by norm_num; omega) r

theorem readLong_enc (i : Int) (h : isI64 i = true) (r : List Nat) :
    readLong (encSigned 8 i ++ r) = .ok (i, r) := by
  simp only [isI64, Bool.and_eq_true, decide_eq_true_eq] at h
  exact readSigned_encSigned 8 (by omega) i (by norm_num; omega) (by norm_num; omega) r

theorem readFloat_enc (bits : Nat) (h : bits < 2 ^ 32) (r : List Nat) :
    readFloat (beBytes 4 bits ++ r) = .ok (bits, r) := by
  exact readUnsigned_beBytes 4 bits (by norm_num; omega) r

theorem readDouble_enc (bits : Nat) (h : bits < 2 ^ 64) (r : List Nat) :
    readDouble (beBytes 8 bits ++ r) = .ok (bits, r) := by
  exact readUnsigned_beBytes 8 bits (by norm_num; omega) r

/-! String payloads and the shared element loops. -/

theorem readStr_rt (s : RStr) (h : wfStr s = true) (r : List Nat) :
    readStr (encStr s ++ r) = .ok (s, r) := by
  simp only [wfStr, Bool.and_eq_true, decide_eq_true_eq] at h
  obtain ⟨hu, hlen⟩ := h
  have hs := readSigned_beBytes_small 2 (by omega) s.length (by omega) (s ++ r)
  rw [readStr, encStr, List.append_assoc, show readShort = readSigned 2 from rfl, hs]
  simp only []
  rw [usizeOf_natCast _ (by omega), readExact_append]
  simp only []
  rw [if_pos hu]

theorem readStr_tr (s : RStr) (h : wfStr s = true) (j : Nat) (hj : j < (encStr s).length) :
    readStr ((encStr s).take j) = .error .UnexpectedEnd := by
  simp only [wfStr, Bool.and_eq_true, decide_eq_true_eq] at h
  obtain ⟨hu, hlen⟩ := h
  have hlenc : (encStr s).length = 2 + s.length := by
    rw [encStr, List.length_append, beBytes_length]
  rcases lt_or_ge j 2 with hj2 | hj2
  · have hshort : ((encStr s).take j).length < 2 := by
      rw [List.length_take]
      omega
    rw [readStr, show readShort = readSigned 2 from rfl, readSigned_short_input 2 _ hshort]
  · have hsplit : (encStr s).take j = beBytes 2 s.length ++ s.take (j - 2) := by
      rw [encStr, List.take_append_eq_append_take, beBytes_length,
        List.take_of_length_le (by rw [beBytes_length]; omega)]
    have hs := readSigned_beBytes_small 2 (by omega) s.length (by omega) (s.take (j - 2))
    rw [readStr, hsplit, show readShort = readSigned 2 from rfl, hs]
    simp only []
    rw [usizeOf_natCast _ (by omega),
      readExact_short _ _ (by rw [List.length_take]; rw [hlenc] at hj; omega)]

theorem readN_rt {α : Type} (rd : List Nat → Except ParseError (α × List Nat))
    (enc : α → List Nat) (l : List α)
    (h : ∀ x ∈ l, ∀ r, rd (enc x ++ r) = .ok (x, r)) (r : List Nat) :
    readN rd l.length (encList enc l ++ r) = .ok (l, r) := by
  induction l with
  | nil => simp [readN, encList]
  | cons x tl ih =>
    rw [encList, List.length_cons, readN, List.append_assoc,
      h x (by simp) (encList enc tl ++ r)]
    simp only []
    rw [ih (fun y hy => h y (by simp [hy]))]

theorem readN_length {α : Type} (rd : List Nat → Except ParseError (α × List Nat))
    (n : Nat) (input : List Nat) (l : List α) (r : List Nat)
    (h : readN rd n input = .ok (l, r)) : l.length = n := by
  induction n generalizing input l r with
  | zero =>
    rw [readN] at h
    cases h
    rfl
  | succ n ih =>
    rw [readN] at h
    rcases h1 : rd input with e | ⟨x, r1⟩
    · rw [h1] at h
      cases h
    · rw [h1] at h
      simp only [] at h
      rcases h2 : readN rd n r1 with e | ⟨xs, r2⟩
      · rw [h2] at h
        cases h
      · rw [h2] at h
        simp only [] at h
        cases h
        simp [ih r1 xs r h2]

theorem readN_tr {α : Type} (rd : List Nat → Except ParseError (α × List Nat))
    (enc : α → List Nat) (l : List α)
    (hrt : ∀ x ∈ l, ∀ r, rd (enc x ++ r) = .ok (x, r))
    (htr : ∀ x ∈ l, ∀ j, j < (enc x).length → rd ((enc x).take j) = .error .UnexpectedEnd)
    (k : Nat) (hk : k < (encList enc l).length) :
    readN rd l.length ((encList enc l).take k) = .error .UnexpectedEnd := by
  induction l generalizing k with
  | nil => simp [encList] at hk
  | cons x tl ih =>
    rw [encList, List.length_append] at hk
    rw [encList, List.length_cons, List.take_append_eq_append_take]
    rcases lt_or_ge k (enc x).length with hx | hx
    · rw [show k - (enc x).length = 0 by omega, List.take_zero, List.append_nil, readN,
        htr x (by simp) k hx]
    · rw [List.take_of_length_le hx, readN, hrt x (by simp) _]
      simp only []
      rw [ih (fun y hy => hrt y (by simp [hy])) (fun y hy => htr y (by simp [hy]))
        (k - (enc x).length) (by omega)]

/-! Array payloads. -/

theorem readByteArray_rt (a : List Int) (hlen : wfLen a.length = true)
    (hall : a.all isI8 = true) (r : List Nat) :
    readByteArray (encByteArray a ++ r) = .ok (a, r) := by
  simp only [wfLen, decide_eq_true_eq] at hlen
  have hc := readInt_enc (a.length : Int)
    (by simp only [isI32, Bool.and_eq_true, decide_eq_true_eq]
        omega)
    (encList (encSigned 1) a ++ r)
  rw [readByteArray, encByteArray, List.append_assoc, hc]
  simp only []
  rw [usizeOf_natCast _ (by omega)]
  exact readN_rt readByte (encSigned 1) a
    (fun x hx r2 => readByte_enc x (List.all_eq_true.mp hall x hx) r2) r

theorem readIntArray_rt (a : List Int) (hlen : wfLen a.length = true)
    (hall : a.all isI32 = true) (r : List Nat) :
    readIntArray (encIntArray a ++ r) = .ok (a, r) := by
  simp only [wfLen, decide_eq_true_eq] at hlen
  have hc := readInt_enc (a.length : Int)
    (by simp only [isI32, Bool.and_eq_true, decide_eq_true_eq]
        omega)
    (encList (encSigned 4) a ++ r)
  rw [readIntArray, encIntArray, List.append_assoc, hc]
  simp only []
  rw [usizeOf_natCast _ (by omega)]
  exact readN_rt readInt (encSigned 4) a
    (fun x hx r2 => readInt_enc x (List.all_eq_true.mp hall x hx) r2) r

theorem readLongArray_rt (a : List Int) (hlen : wfLen a.length = true)
    (hall : a.all isI64 = true) (r : List Nat) :
    readLongArray (encLongArray a ++ r) = .ok (a, r) := by
  simp only [wfLen, decide_eq_true_eq] at hlen
  have hc := readInt_enc (a.length : Int)
    (by simp only [isI32, Bool.and_eq_true, decide_eq_true_eq]
        omega)
    (encList (encSigned 8) a ++ r)
  rw [readLongArray, encLongArray, List.append_assoc, hc]
  simp only []
  rw [usizeOf_natCast _ (by omega)]
  exact readN_rt readLong (encSigned 8) a
    (fun x hx r2 => readLong_enc x (List.all_eq_true.mp hall x hx) r2) r

theorem readByteArray_tr (a : List Int) (hlen : wfLen a.length = true)
    (hall : a.all isI8 = true) (j : Nat) (hj : j < (encByteArray a).length) :
    readByteArray ((encByteArray a).take j) = .error .UnexpectedEnd := by
  simp only [wfLen, decide_eq_true_eq] at hlen
  rw [encByteArray, List.length_append, encSigned_length] at hj
  rcases lt_or_ge j 4 with hj4 | hj4
  · rw [readByteArray, show readInt = readSigned 4 from rfl,
      readSigned_short_input 4 _ (by rw [List.length_take]; rw [encByteArray]; simp [encSigned_length]; omega)]
  · rw [readByteArray, encByteArray, List.take_append_eq_append_take, encSigned_length,
      List.take_of_length_le (by rw [encSigned_length]; omega),
      readInt_enc (a.length : Int)
        (by simp only [isI32, Bool.and_eq_true, decide_eq_true_eq]; omega)]
    simp only []
    rw [usizeOf_natCast _ (by omega)]
    exact readN_tr readByte (encSigned 1) a
      (fun x hx r2 => readByte_enc x (List.all_eq_true.mp hall x hx) r2)
      (fun x hx i hi => by
        rw [encSigned_length] at hi
        exact readSigned_short_input 1 _ (by rw [List.length_take, encSigned_length]; omega))
      (j - 4) (by omega)

theorem readIntArray_tr (a : List Int) (hlen : wfLen a.length = true)
    (hall : a.all isI32 = true) (j : Nat) (hj : j < (encIntArray a).length) :
    readIntArray ((encIntArray a).take j) = .error .UnexpectedEnd := by
  simp only [wfLen, decide_eq_true_eq] at hlen
  rw [encIntArray, List.length_append, encSigned_length] at hj
  rcases lt_or_ge j 4 with hj4 | hj4
  · rw [readIntArray, show readInt = readSigned 4 from rfl,
      readSigned_short_input 4 _ (by rw [List.length_take]; rw [encIntArray]; simp [encSigned_length]; omega)]
  · rw [readIntArray, encIntArray, List.take_append_eq_append_take, encSigned_length,
      List.take_of_length_le (by rw [encSigned_length]; omega),
      readInt_enc (a.length : Int)
        (by simp only [isI32, Bool.and_eq_true, decide_eq_true_eq]; omega)]
    simp only []
    rw [usizeOf_natCast _ (by omega)]
    exact readN_tr readInt (encSigned 4) a
      (fun x hx r2 => readInt_enc x (List.all_eq_true.mp hall x hx) r2)
      (fun x hx i hi => by
        rw [encSigned_length] at hi
        exact readSigned_short_input 4 _ (by rw [List.length_take, encSigned_length]; omega))
      (j - 4) (by omega)

theorem readLongArray_tr (a : List Int) (hlen : wfLen a.length = true)
    (hall : a.all isI64 = true) (j : Nat) (hj : j < (encLongArray a).length) :
    readLongArray ((encLongArray a).take j) = .error .UnexpectedEnd := by
  simp only [wfLen, decide_eq_true_eq] at hlen
  rw [encLongArray, List.length_append, encSigned_length] at hj
  rcases lt_or_ge j 4 with hj4 | hj4
  · rw [readLongArray, show readInt = readSigned 4 from rfl,
      readSigned_short_input 4 _ (by rw [List.length_take]; rw [encLongArray]; simp [encSigned_length]; omega)]
  · rw [readLongArray, encLongArray, List.take_append_eq_append_take, encSigned_length,
      List.take_of_length_le (by rw [encSigned_length]; omega),
      readInt_enc (a.length : Int)
        (by simp only [isI32, Bool.and_eq_true, decide_eq_true_eq]; omega)]
    simp only []
    rw [usizeOf_natCast _ (by omega)]
    exact readN_tr readLong (encSigned 8) a
      (fun x hx r2 => readLong_enc x (List.all_eq_true.mp hall x hx) r2)
      (fun x hx i hi => by
        rw [encSigned_length] at hi
        exact readSigned_short_input 8 _ (by rw [List.length_take, encSigned_length]; omega))
      (j - 4) (by omega)

/-! Key order and `BTreeMap::insert`. -/

theorem strLt_irrefl (s : RStr) : strLt s s = false := by
  induction s with
  | nil => rfl
  | cons a as ih => simp [strLt, ih]

theorem strLt_asymm (a b : RStr) (h : strLt a b = true) : strLt b a = false := by
  induction a generalizing b with
  | nil =>
    cases b with
    | nil => rfl
    | cons y bs => rfl
  | cons x as ih =>
    cases b with
    | nil => simp [strLt] at h
    | cons y bs =>
      simp only [strLt, Bool.or_eq_true, Bool.and_eq_true, decide_eq_true_eq] at h
      rcases h with h | ⟨heq, hrec⟩
      · have h1 : ¬y < x := by omega
        have h2 : ¬y = x := by omega
        simp [strLt, h1, h2]
      · have h1 : ¬y < x := by omega
        have h2 : strLt bs as = false := by
          subst heq
          exact ih bs hrec
        simp [strLt, h1, h2]

theorem insert_append_of_forall_lt (k : RStr) (v : Value) (c : Compound)
    (h : ∀ e ∈ c, strLt e.1 k = true) :
    Compound.insert k v c = c ++ [(k, v)] := by
  induction c with
  | nil => rfl
  | cons e tl ih =>
    obtain ⟨k2, v2⟩ := e
    have h2 : strLt k2 k = true := h (k2, v2) (by simp)
    have hlt : strLt k k2 = false := strLt_asymm _ _ h2
    have hne : k ≠ k2 := by
      intro heq
      rw [heq] at h2
      rw [strLt_irrefl] at h2
      cases h2
    rw [Compound.insert, if_neg (by simp [hlt]), if_neg hne, ih (fun e2 he2 => h e2 (by simp [he2]))]
    rfl

theorem foldIns_sorted (c : Compound) (h : sortedKeys c = true) :
    ∀ acc : Compound, (∀ e ∈ acc, ∀ e2 ∈ c, strLt e.1 e2.1 = true) →
      foldIns acc c = acc ++ c := by
  induction c with
  | nil => intro acc _; simp [foldIns]
  | cons e tl ih =>
    intro acc hacc
    obtain ⟨k, v⟩ := e
    rw [sortedKeys, Bool.and_eq_true] at h
    obtain ⟨hall, hsort⟩ := h
    have hins : Compound.insert k v acc = acc ++ [(k, v)] :=
      insert_append_of_forall_lt k v acc (fun e2 he2 => hacc e2 he2 (k, v) (by simp))
    have hstep : foldIns acc ((k, v) :: tl) = foldIns (acc ++ [(k, v)]) tl := by
      rw [foldIns, List.foldl_cons, hins]
      rfl
    rw [hstep, ih hsort (acc ++ [(k, v)]) ?_]
    · simp
    · intro e2 he2 e3 he3
      rcases List.mem_append.mp he2 with h2 | h2
      · exact hacc e2 h2 e3 (by simp [he3])
      · simp only [List.mem_singleton] at h2
        subst h2
        exact List.all_eq_true.mp hall e3 he3

theorem foldIns_nil_sorted (c : Compound) (h : sortedKeys c = true) : foldIns [] c = c := by
  rw [foldIns_sorted c h [] (by intro e he; cases he)]
  rfl

theorem insert_insert_same (n : RStr) (v1 v2 : Value) :
    Compound.insert n v2 (Compound.insert n v1 []) = [(n, v2)] := by
  simp [Compound.insert, strLt_irrefl]

/-! Tag bytes of the reference encoder. -/

theorem tryFrom_tagByte (v : Value) : Ty.tryFrom (tagByte v) = .ok (tyOf v) := by
  cases v <;> rfl

theorem tyOf_ne_End (v : Value) : tyOf v ≠ .End := by
  cases v <;> simp [tyOf]

theorem encodePayload_length_pos (v : Value) : 0 < (encodePayload v).length := by
  cases v <;>
    simp [encodePayload, encSigned_length, beBytes_length, encStr, encByteArray,
      encIntArray, encLongArray, List.length_append]

/-! The round-trip family: with sufficient fuel, the parser inverts the
reference encoder on every well-formed value.  Fuel bookkeeping: one unit of
fuel is spent per entry or element iteration and per nesting step, and every
iteration and nesting step consumes at least one input byte, so a budget one
above the relevant byte count always suffices. -/

mutual

theorem pvwt_rt : ∀ (v : Value), wfValue v = true → ∀ (fuel : Nat) (r : List Nat),
    (encodePayload v).length + 1 ≤ fuel →
    parseValueWithTag fuel (tyOf v) (encodePayload v ++ r) = .ok (v, r)
  | .Byte i, hwf, fuel, r, hfuel => by
    obtain ⟨f, rfl⟩ : ∃ f, fuel = f + 1 := ⟨fuel - 1, by omega⟩
    rw [wfValue] at hwf
    rw [tyOf, encodePayload, parseValueWithTag, readByte_enc i hwf r]
  | .Short i, hwf, fuel, r, hfuel => by
    obtain ⟨f, rfl⟩ : ∃ f, fuel = f + 1 := ⟨fuel - 1, by omega⟩
    rw [wfValue] at hwf
    rw [tyOf, encodePayload, parseValueWithTag, readShort_enc i hwf r]
  | .Int i, hwf, fuel, r, hfuel => by
    obtain ⟨f, rfl⟩ : ∃ f, fuel = f + 1 := ⟨fuel - 1, by omega⟩
    rw [wfValue] at hwf
    rw [tyOf, encodePayload, parseValueWithTag, readInt_enc i hwf r]
  | .Long i, hwf, fuel, r, hfuel => by
    obtain ⟨f, rfl⟩ : ∃ f, fuel = f + 1 := ⟨fuel - 1, by omega⟩
    rw [wfValue] at hwf
    rw [tyOf, encodePayload, parseValueWithTag, readLong_enc i hwf r]
  | .Float bits, hwf, fuel, r, hfuel => by
    obtain ⟨f, rfl⟩ : ∃ f, fuel = f + 1 := ⟨fuel - 1, by omega⟩
    rw [wfValue, decide_eq_true_eq] at hwf
    rw [tyOf, encodePayload, parseValueWithTag, readFloat_enc bits hwf r]
  | .Double bits, hwf, fuel, r, hfuel => by
    obtain ⟨f, rfl⟩ : ∃ f, fuel = f + 1 := ⟨fuel - 1, by omega⟩
    rw [wfValue, decide_eq_true_eq] at hwf
    rw [tyOf, encodePayload, parseValueWithTag, readDouble_enc bits hwf r]
  | .ByteArray a, hwf, fuel, r, hfuel => by
    obtain ⟨f, rfl⟩ : ∃ f, fuel = f + 1 := ⟨fuel - 1, by omega⟩
    rw [wfValue, Bool.and_eq_true] at hwf
    rw [tyOf, encodePayload, parseValueWithTag, readByteArray_rt a hwf.1 hwf.2 r]
  | .Str s, hwf, fuel, r, hfuel => by
    obtain ⟨f, rfl⟩ : ∃ f, fuel = f + 1 := ⟨fuel - 1, by omega⟩
    rw [wfValue] at hwf
    rw [tyOf, encodePayload, parseValueWithTag, readStr_rt s hwf r]
  | .Compound c, hwf, fuel, r, hfuel => by
    obtain ⟨f, rfl⟩ : ∃ f, fuel = f + 1 := ⟨fuel - 1, by omega⟩
    rw [wfValue, Bool.and_eq_true] at hwf
    have hlen : (encodePayload (.Compound c)).length = (encEntries c).length + 1 := by
      rw [encodePayload, List.length_append]
      rfl
    rw [tyOf, encodePayload, parseValueWithTag, List.append_assoc, List.singleton_append,
      entries_rt c hwf.1 f [] r (by rw [hlen] at hfuel; omega),
      foldIns_nil_sorted c hwf.2]
  | .IntArray a, hwf, fuel, r, hfuel => by
    obtain ⟨f, rfl⟩ : ∃ f, fuel = f + 1 := ⟨fuel - 1, by omega⟩
    rw [wfValue, Bool.and_eq_true] at hwf
    rw [tyOf, encodePayload, parseValueWithTag, readIntArray_rt a hwf.1 hwf.2 r]
  | .LongArray a, hwf, fuel, r, hfuel => by
    obtain ⟨f, rfl⟩ : ∃ f, fuel = f + 1 := ⟨fuel - 1, by omega⟩
    rw [wfValue, Bool.and_eq_true] at hwf
    rw [tyOf, encodePayload, parseValueWithTag, readLongArray_rt a hwf.1 hwf.2 r]
  | .EndList, hwf, fuel, r, hfuel => by
    obtain ⟨f, rfl⟩ : ∃ f, fuel = f + 1 := ⟨fuel - 1, by omega⟩
    simp only [tyOf]
    rw [parseValueWithTag]
    exact plist_rt .EndList rfl hwf f r (by omega)
  | .EmptyByteList, hwf, fuel, r, hfuel => by
    obtain ⟨f, rfl⟩ : ∃ f, fuel = f + 1 := ⟨fuel - 1, by omega⟩
    simp only [tyOf]
    rw [parseValueWithTag]
    exact plist_rt .EmptyByteList rfl hwf f r (by omega)
  | .ByteList l, hwf, fuel, r, hfuel => by
    obtain ⟨f, rfl⟩ : ∃ f, fuel = f + 1 := ⟨fuel - 1, by omega⟩
    simp only [tyOf]
    rw [parseValueWithTag]
    exact plist_rt (.ByteList l) rfl hwf f r (by omega)
  | .ShortList l, hwf, fuel, r, hfuel => by
    obtain ⟨f, rfl⟩ : ∃ f, fuel = f + 1 := ⟨fuel - 1, by omega⟩
    simp only [tyOf]
    rw [parseValueWithTag]
    exact plist_rt (.ShortList l) rfl hwf f r (by omega)
  | .IntList l, hwf, fuel, r, hfuel => by
    obtain ⟨f, rfl⟩ : ∃ f, fuel = f + 1 := ⟨fuel - 1, by omega⟩
    simp only [tyOf]
    rw [parseValueWithTag]
    exact plist_rt (.IntList l) rfl hwf f r (by omega)
  | .LongList l, hwf, fuel, r, hfuel => by
    obtain ⟨f, rfl⟩ : ∃ f, fuel = f + 1 := ⟨fuel - 1, by omega⟩
    simp only [tyOf]
    rw [parseValueWithTag]
    exact plist_rt (.LongList l) rfl hwf f r (by omega)
  | .FloatList l, hwf, fuel, r, hfuel => by
    obtain ⟨f, rfl⟩ : ∃ f, fuel = f + 1 := ⟨fuel - 1, by omega⟩
    simp only [tyOf]
    rw [parseValueWithTag]
    exact plist_rt (.FloatList l) rfl hwf f r (by omega)
  | .DoubleList l, hwf, fuel, r, hfuel => by
    obtain ⟨f, rfl⟩ : ∃ f, fuel = f + 1 := ⟨fuel - 1, by omega⟩
    simp only [tyOf]
    rw [parseValueWithTag]
    exact plist_rt (.DoubleList l) rfl hwf f r (by omega)
  | .ByteArrayList l, hwf, fuel, r, hfuel => by
    obtain ⟨f, rfl⟩ : ∃ f, fuel = f + 1 := ⟨fuel - 1, by omega⟩
    simp only [tyOf]
    rw [parseValueWithTag]
    exact plist_rt (.ByteArrayList l) rfl hwf f r (by omega)
  | .StrList l, hwf, fuel, r, hfuel => by
    obtain ⟨f, rfl⟩ : ∃ f, fuel = f + 1 := ⟨fuel - 1, by omega⟩
    simp only [tyOf]
    rw [parseValueWithTag]
    exact plist_rt (.StrList l) rfl hwf f r (by omega)
  | .ListList l, hwf, fuel, r, hfuel => by
    obtain ⟨f, rfl⟩ : ∃ f, fuel = f + 1 := ⟨fuel - 1, by omega⟩
    simp only [tyOf]
    rw [parseValueWithTag]
    exact plist_rt (.ListList l) rfl hwf f r (by omega)
  | .CompoundList l, hwf, fuel, r, hfuel => by
    obtain ⟨f, rfl⟩ : ∃ f, fuel = f + 1 := ⟨fuel - 1, by omega⟩
    simp only [tyOf]
    rw [parseValueWithTag]
    exact plist_rt (.CompoundList l) rfl hwf f r (by omega)
  | .IntArrayList l, hwf, fuel, r, hfuel => by
    obtain ⟨f, rfl⟩ : ∃ f, fuel = f + 1 := ⟨fuel - 1, by omega⟩
    simp only [tyOf]
    rw [parseValueWithTag]
    exact plist_rt (.IntArrayList l) rfl hwf f r (by omega)
  | .LongArrayList l, hwf, fuel, r, hfuel => by
    obtain ⟨f, rfl⟩ : ∃ f, fuel = f + 1 := ⟨fuel - 1, by omega⟩
    simp only [tyOf]
    rw [parseValueWithTag]
    exact plist_rt (.LongArrayList l) rfl hwf f r (by omega)
termination_by v => 2 * sizeOf v + 1

theorem plist_rt : ∀ (v : Value), isListVariant v = true → wfValue v = true →
    ∀ (fuel : Nat) (r : List Nat), (encodePayload v).length ≤ fuel →
    parseList fuel (encodePayload v ++ r) = .ok (v, r)
  | .Byte i, hl, _, _, _, _ => Bool.noConfusion hl
  | .Short i, hl, _, _, _, _ => Bool.noConfusion hl
  | .Int i, hl, _, _, _, _ => Bool.noConfusion hl
  | .Long i, hl, _, _, _, _ => Bool.noConfusion hl
  | .Float bits, hl, _, _, _, _ => Bool.noConfusion hl
  | .Double bits, hl, _, _, _, _ => Bool.noConfusion hl
  | .ByteArray a, hl, _, _, _, _ => Bool.noConfusion hl
  | .Str s, hl, _, _, _, _ => Bool.noConfusion hl
  | .Compound c, hl, _, _, _, _ => Bool.noConfusion hl
  | .IntArray a, hl, _, _, _, _ => Bool.noConfusion hl
  | .LongArray a, hl, _, _, _, _ => Bool.noConfusion hl
  | .EndList, hl, hwf, fuel, r, hfuel => by
    obtain ⟨f, rfl⟩ : ∃ f, fuel = f + 1 :=
      ⟨fuel - 1, by have := encodePayload_length_pos (.EndList : Value); omega⟩
    rw [encodePayload, List.cons_append, parseList]
    simp only [readTag, Ty.tryFrom]
    rw [readInt_enc 0 (by decide) r]
  | .EmptyByteList, hl, hwf, fuel, r, hfuel => by
    obtain ⟨f, rfl⟩ : ∃ f, fuel = f + 1 :=
      ⟨fuel - 1, by have := encodePayload_length_pos (.EmptyByteList : Value); omega⟩
    rw [encodePayload, List.cons_append, parseList]
    simp only [readTag, Ty.tryFrom]
    rw [readInt_enc 0 (by decide) r]
    simp only []
    rw [show usizeOf 0 = 0 from rfl, if_pos rfl]
  | .ByteList l, hl, hwf, fuel, r, hfuel => by
    obtain ⟨f, rfl⟩ : ∃ f, fuel = f + 1 :=
      ⟨fuel - 1, by have := encodePayload_length_pos (.ByteList l : Value); omega⟩
    rw [wfValue, Bool.and_eq_true, Bool.and_eq_true] at hwf
    obtain ⟨⟨hne, hlen⟩, hall⟩ := hwf
    simp only [wfLen, decide_eq_true_eq] at hlen
    rw [encodePayload, List.cons_append, parseList]
    simp only [readTag, Ty.tryFrom]
    rw [List.append_assoc, readInt_enc (l.length : Int)
      (by simp only [isI32, Bool.and_eq_true, decide_eq_true_eq]; omega) _]
    simp only []
    rw [usizeOf_natCast _ (by omega)]
    rw [if_neg (show ¬l.length = 0 from by
      cases l with
      | nil => simp at hne
      | cons x xs => simp)]
    rw [readN_rt readByte (encSigned 1) l
      (fun x hx r2 => readByte_enc x (List.all_eq_true.mp hall x hx) r2) r]
  | .ShortList l, hl, hwf, fuel, r, hfuel => by
    obtain ⟨f, rfl⟩ : ∃ f, fuel = f + 1 :=
      ⟨fuel - 1, by have := encodePayload_length_pos (.ShortList l : Value); omega⟩
    rw [wfValue, Bool.and_eq_true] at hwf
    obtain ⟨hlen, hall⟩ := hwf
    simp only [wfLen, decide_eq_true_eq] at hlen
    rw [encodePayload, List.cons_append, parseList]
    simp only [readTag, Ty.tryFrom]
    rw [List.append_assoc, readInt_enc (l.length : Int)
      (by simp only [isI32, Bool.and_eq_true, decide_eq_true_eq]; omega) _]
    simp only []
    rw [usizeOf_natCast _ (by omega)]
    rw [readN_rt readShort (encSigned 2) l
      (fun x hx r2 => readShort_enc x (List.all_eq_true.mp hall x hx) r2) r]
  | .IntList l, hl, hwf, fuel, r, hfuel => by
    obtain ⟨f, rfl⟩ : ∃ f, fuel = f + 1 :=
      ⟨fuel - 1, by have := encodePayload_length_pos (.IntList l : Value); omega⟩
    rw [wfValue, Bool.and_eq_true] at hwf
    obtain ⟨hlen, hall⟩ := hwf
    simp only [wfLen, decide_eq_true_eq] at hlen
    rw [encodePayload, List.cons_append, parseList]
    simp only [readTag, Ty.tryFrom]
    rw [List.append_assoc, readInt_enc (l.length : Int)
      (by simp only [isI32, Bool.and_eq_true, decide_eq_true_eq]; omega) _]
    simp only []
    rw [usizeOf_natCast _ (by omega)]
    rw [readN_rt readInt (encSigned 4) l
      (fun x hx r2 => readInt_enc x (List.all_eq_true.mp hall x hx) r2) r]
  | .LongList l, hl, hwf, fuel, r, hfuel => by
    obtain ⟨f, rfl⟩ : ∃ f, fuel = f + 1 :=
      ⟨fuel - 1, by have := encodePayload_length_pos (.LongList l : Value); omega⟩
    rw [wfValue, Bool.and_eq_true] at hwf
    obtain ⟨hlen, hall⟩ := hwf
    simp only [wfLen, decide_eq_true_eq] at hlen
    rw [encodePayload, List.cons_append, parseList]
    simp only [readTag, Ty.tryFrom]
    rw [List.append_assoc, readInt_enc (l.length : Int)
      (by simp only [isI32, Bool.and_eq_true, decide_eq_true_eq]; omega) _]
    simp only []
    rw [usizeOf_natCast _ (by omega)]
    rw [readN_rt readLong (encSigned 8) l
      (fun x hx r2 => readLong_enc x (List.all_eq_true.mp hall x hx) r2) r]
  | .FloatList l, hl, hwf, fuel, r, hfuel => by
    obtain ⟨f, rfl⟩ : ∃ f, fuel = f + 1 :=
      ⟨fuel - 1, by have := encodePayload_length_pos (.FloatList l : Value); omega⟩
    rw [wfValue, Bool.and_eq_true] at hwf
    obtain ⟨hlen, hall⟩ := hwf
    simp only [wfLen, decide_eq_true_eq] at hlen
    rw [encodePayload, List.cons_append, parseList]
    simp only [readTag, Ty.tryFrom]
    rw [List.append_assoc, readInt_enc (l.length : Int)
      (by simp only [isI32, Bool.and_eq_true, decide_eq_true_eq]; omega) _]
    simp only []
    rw [usizeOf_natCast _ (by omega)]
    rw [readN_rt readFloat (beBytes 4) l
      (fun x hx r2 => readFloat_enc x (by
        have := List.all_eq_true.mp hall x hx
        simpa using this) r2) r]
  | .DoubleList l, hl, hwf, fuel, r, hfuel => by
    obtain ⟨f, rfl⟩ : ∃ f, fuel = f + 1 :=
      ⟨fuel - 1, by have := encodePayload_length_pos (.DoubleList l : Value); omega⟩
    rw [wfValue, Bool.and_eq_true] at hwf
    obtain ⟨hlen, hall⟩ := hwf
    simp only [wfLen, decide_eq_true_eq] at hlen
    rw [encodePayload, List.cons_append, parseList]
    simp only [readTag, Ty.tryFrom]
    rw [List.append_assoc, readInt_enc (l.length : Int)
      (by simp only [isI32, Bool.and_eq_true, decide_eq_true_eq]; omega) _]
    simp only []
    rw [usizeOf_natCast _ (by omega)]
    rw [readN_rt readDouble (beBytes 8) l
      (fun x hx r2 => readDouble_enc x (by
        have := List.all_eq_true.mp hall x hx
        simpa using this) r2) r]
  | .ByteArrayList l, hl, hwf, fuel, r, hfuel => by
    obtain ⟨f, rfl⟩ : ∃ f, fuel = f + 1 :=
      ⟨fuel - 1, by have := encodePayload_length_pos (.ByteArrayList l : Value); omega⟩
    rw [wfValue, Bool.and_eq_true] at hwf
    obtain ⟨hlen, hall⟩ := hwf
    simp only [wfLen, decide_eq_true_eq] at hlen
    rw [encodePayload, List.cons_append, parseList]
    simp only [readTag, Ty.tryFrom]
    rw [List.append_assoc, readInt_enc (l.length : Int)
      (by simp only [isI32, Bool.and_eq_true, decide_eq_true_eq]; omega) _]
    simp only []
    rw [usizeOf_natCast _ (by omega)]
    rw [readN_rt readByteArray encByteArray l
      (fun x hx r2 => by
        have hx2 := List.all_eq_true.mp hall x hx
        rw [Bool.and_eq_true] at hx2
        exact readByteArray_rt x hx2.1 hx2.2 r2) r]
  | .StrList l, hl, hwf, fuel, r, hfuel => by
    obtain ⟨f, rfl⟩ : ∃ f, fuel = f + 1 :=
      ⟨fuel - 1, by have := encodePayload_length_pos (.StrList l : Value); omega⟩
    rw [wfValue, Bool.and_eq_true] at hwf
    obtain ⟨hlen, hall⟩ := hwf
    simp only [wfLen, decide_eq_true_eq] at hlen
    rw [encodePayload, List.cons_append, parseList]
    simp only [readTag, Ty.tryFrom]
    rw [List.append_assoc, readInt_enc (l.length : Int)
      (by simp only [isI32, Bool.and_eq_true, decide_eq_true_eq]; omega) _]
    simp only []
    rw [usizeOf_natCast _ (by omega)]
    rw [readN_rt readStr encStr l
      (fun x hx r2 => readStr_rt x (List.all_eq_true.mp hall x hx) r2) r]
  | .ListList l, hl, hwf, fuel, r, hfuel => by
    obtain ⟨f, rfl⟩ : ∃ f, fuel = f + 1 :=
      ⟨fuel - 1, by have := encodePayload_length_pos (.ListList l : Value); omega⟩
    rw [wfValue, Bool.and_eq_true] at hwf
    obtain ⟨hlen, helems⟩ := hwf
    simp only [wfLen, decide_eq_true_eq] at hlen
    have hlenenc : (encodePayload (.ListList l)).length = 5 + (encValues l).length := by
      rw [encodePayload, List.length_cons, List.length_append, encSigned_length]
      omega
    rw [encodePayload, List.cons_append, parseList]
    simp only [readTag, Ty.tryFrom]
    rw [List.append_assoc, readInt_enc (l.length : Int)
      (by simp only [isI32, Bool.and_eq_true, decide_eq_true_eq]; omega) _]
    simp only []
    rw [usizeOf_natCast _ (by omega)]
    rw [values_rt l helems f r (by rw [hlenenc] at hfuel; omega)]
  | .CompoundList l, hl, hwf, fuel, r, hfuel => by
    obtain ⟨f, rfl⟩ : ∃ f, fuel = f + 1 :=
      ⟨fuel - 1, by have := encodePayload_length_pos (.CompoundList l : Value); omega⟩
    rw [wfValue, Bool.and_eq_true] at hwf
    obtain ⟨hlen, helems⟩ := hwf
    simp only [wfLen, decide_eq_true_eq] at hlen
    have hlenenc : (encodePayload (.CompoundList l)).length = 5 + (encCompounds l).length := by
      rw [encodePayload, List.length_cons, List.length_append, encSigned_length]
      omega
    rw [encodePayload, List.cons_append, parseList]
    simp only [readTag, Ty.tryFrom]
    rw [List.append_assoc, readInt_enc (l.length : Int)
      (by simp only [isI32, Bool.and_eq_true, decide_eq_true_eq]; omega) _]
    simp only []
    rw [usizeOf_natCast _ (by omega)]
    rw [comps_rt l helems f r (by rw [hlenenc] at hfuel; omega)]
  | .IntArrayList l, hl, hwf, fuel, r, hfuel => by
    obtain ⟨f, rfl⟩ : ∃ f, fuel = f + 1 :=
      ⟨fuel - 1, by have := encodePayload_length_pos (.IntArrayList l : Value); omega⟩
    rw [wfValue, Bool.and_eq_true] at hwf
    obtain ⟨hlen, hall⟩ := hwf
    simp only [wfLen, decide_eq_true_eq] at hlen
    rw [encodePayload, List.cons_append, parseList]
    simp only [readTag, Ty.tryFrom]
    rw [List.append_assoc, readInt_enc (l.length : Int)
      (by simp only [isI32, Bool.and_eq_true, decide_eq_true_eq]; omega) _]
    simp only []
    rw [usizeOf_natCast _ (by omega)]
    rw [readN_rt readIntArray encIntArray l
      (fun x hx r2 => by
        have hx2 := List.all_eq_true.mp hall x hx
        rw [Bool.and_eq_true] at hx2
        exact readIntArray_rt x hx2.1 hx2.2 r2) r]
  | .LongArrayList l, hl, hwf, fuel, r, hfuel => by
    obtain ⟨f, rfl⟩ : ∃ f, fuel = f + 1 :=
      ⟨fuel - 1, by have := encodePayload_length_pos (.LongArrayList l : Value); omega⟩
    rw [wfValue, Bool.and_eq_true] at hwf
    obtain ⟨hlen, hall⟩ := hwf
    simp only [wfLen, decide_eq_true_eq] at hlen
    rw [encodePayload, List.cons_append, parseList]
    simp only [readTag, Ty.tryFrom]
    rw [List.append_assoc, readInt_enc (l.length : Int)
      (by simp only [isI32, Bool.and_eq_true, decide_eq_true_eq]; omega) _]
    simp only []
    rw [usizeOf_natCast _ (by omega)]
    rw [readN_rt readLongArray encLongArray l
      (fun x hx r2 => by
        have hx2 := List.all_eq_true.mp hall x hx
        rw [Bool.and_eq_true] at hx2
        exact readLongArray_rt x hx2.1 hx2.2 r2) r]
termination_by v => 2 * sizeOf v

theorem entries_rt : ∀ (c : Compound), wfEntriesEach c = true →
    ∀ (fuel : Nat) (acc : Compound) (r : List Nat), (encEntries c).length + 1 ≤ fuel →
    readCompoundAux fuel acc (encEntries c ++ 0 :: r) = .ok (foldIns acc c, r)
  | [], hwf, fuel, acc, r, hfuel => by
    obtain ⟨f, rfl⟩ : ∃ f, fuel = f + 1 := ⟨fuel - 1, by omega⟩
    rw [encEntries, List.nil_append, readCompoundAux]
    simp [readTag, Ty.tryFrom, foldIns]
  | (k, v) :: tl, hwf, fuel, acc, r, hfuel => by
    obtain ⟨f, rfl⟩ : ∃ f, fuel = f + 1 := ⟨fuel - 1, by omega⟩
    rw [wfEntriesEach, Bool.and_eq_true, Bool.and_eq_true] at hwf
    obtain ⟨⟨hk, hv⟩, htl⟩ := hwf
    have hlen : (encEntries ((k, v) :: tl)).length =
        1 + ((encStr k).length + (encodePayload v).length) + (encEntries tl).length := by
      rw [encEntries]
      simp [List.length_append]
      omega
    have hstrlen : (encStr k).length = 2 + k.length := by
      rw [encStr, List.length_append, beBytes_length]
    rw [hlen] at hfuel
    rw [encEntries]
    simp only [List.cons_append, List.append_assoc]
    rw [readCompoundAux, readTag, tryFrom_tagByte]
    simp only []
    rw [if_neg (tyOf_ne_End v)]
    rw [readStr_rt k hk (encodePayload v ++ (encEntries tl ++ 0 :: r))]
    simp only []
    rw [pvwt_rt v hv f (encEntries tl ++ 0 :: r) (by omega)]
    simp only []
    rw [entries_rt tl htl f (Compound.insert k v acc) r (by omega)]
    rfl
termination_by c => 2 * sizeOf c

theorem values_rt : ∀ (l : List Value), wfListElems l = true →
    ∀ (fuel : Nat) (r : List Nat), (encValues l).length + 1 ≤ fuel →
    parseListList fuel l.length (encValues l ++ r) = .ok (l, r)
  | [], h, fuel, r, hfuel => by
    obtain ⟨f, rfl⟩ : ∃ f, fuel = f + 1 := ⟨fuel - 1, by omega⟩
    rw [encValues, List.nil_append, List.length_nil, parseListList]
  | v :: tl, h, fuel, r, hfuel => by
    obtain ⟨f, rfl⟩ : ∃ f, fuel = f + 1 := ⟨fuel - 1, by omega⟩
    rw [wfListElems, Bool.and_eq_true, Bool.and_eq_true] at h
    obtain ⟨⟨hlv, hv⟩, htl⟩ := h
    have hlen : (encValues (v :: tl)).length =
        (encodePayload v).length + (encValues tl).length := by
      rw [encValues, List.length_append]
    have hpos := encodePayload_length_pos v
    rw [hlen] at hfuel
    rw [encValues, List.length_cons, List.append_assoc, parseListList]
    rw [plist_rt v hlv hv f (encValues tl ++ r) (by omega)]
    simp only []
    rw [values_rt tl htl f r (by omega)]
termination_by l => 2 * sizeOf l

theorem comps_rt : ∀ (l : List (List (RStr × Value))), wfComps l = true →
    ∀ (fuel : Nat) (r : List Nat), (encCompounds l).length + 1 ≤ fuel →
    parseCompoundList fuel l.length (encCompounds l ++ r) = .ok (l, r)
  | [], h, fuel, r, hfuel => by
    obtain ⟨f, rfl⟩ : ∃ f, fuel = f + 1 := ⟨fuel - 1, by omega⟩
    rw [encCompounds, List.nil_append, List.length_nil, parseCompoundList]
  | c :: tl, h, fuel, r, hfuel => by
    obtain ⟨f, rfl⟩ : ∃ f, fuel = f + 1 := ⟨fuel - 1, by omega⟩
    rw [wfComps, Bool.and_eq_true, Bool.and_eq_true] at h
    obtain ⟨⟨hc, hsort⟩, htl⟩ := h
    have hlen : (encCompounds (c :: tl)).length =
        (encEntries c).length + 1 + (encCompounds tl).length := by
      rw [encCompounds]
      simp [List.length_append]
      omega
    rw [hlen] at hfuel
    rw [encCompounds, List.length_cons, List.append_assoc, List.append_assoc, parseCompoundList,
      List.singleton_append]
    rw [entries_rt c hc f [] (encCompounds tl ++ r) (by omega)]
    simp only []
    rw [foldIns_nil_sorted c hsort, comps_rt tl htl f r (by omega)]
termination_by l => 2 * sizeOf l

end

/-- The top-level entry loop of `parse` consumes an encoded entry run and ends
cleanly at EOF, accumulating the entries by `BTreeMap::insert` in order. -/
theorem top_rt : ∀ (c : Compound), wfEntriesEach c = true → ∀ (fuel : Nat) (acc : Compound),
    (encEntries c).length + 1 ≤ fuel →
    parseTopAux fuel acc (encEntries c) = .ok (foldIns acc c)
  | [], hwf, fuel, acc, hfuel => by
    obtain ⟨f, rfl⟩ : ∃ f, fuel = f + 1 := ⟨fuel - 1, by omega⟩
    rw [encEntries, parseTopAux]
    simp [readTag, foldIns]
  | (k, v) :: tl, hwf, fuel, acc, hfuel => by
    obtain ⟨f, rfl⟩ : ∃ f, fuel = f + 1 := ⟨fuel - 1, by omega⟩
    rw [wfEntriesEach, Bool.and_eq_true, Bool.and_eq_true] at hwf
    obtain ⟨⟨hk, hv⟩, htl⟩ := hwf
    have hlen : (encEntries ((k, v) :: tl)).length =
        1 + ((encStr k).length + (encodePayload v).length) + (encEntries tl).length := by
      rw [encEntries]
      simp [List.length_append]
      omega
    have hstrlen : (encStr k).length = 2 + k.length := by
      rw [encStr, List.length_append, beBytes_length]
    rw [hlen] at hfuel
    rw [encEntries]
    simp only [List.cons_append, List.append_assoc]
    rw [parseTopAux, readTag, tryFrom_tagByte]
    simp only []
    rw [readStr_rt k hk (encodePayload v ++ encEntries tl)]
    simp only []
    rw [pvwt_rt v hv f (encEntries tl) (by omega)]
    simp only []
    rw [top_rt tl htl f (Compound.insert k v acc) (by omega)]
    rfl


/-- The `read_short`-then-`as usize` cast in `read_str` sign-extends any
declared length at or above `0x8000` into a count near `2^64`, which no finite
stream can satisfy. -/
theorem readStr_signedLengthCast (rep : List Nat) (h : rep.length < 18446744073709518848) :
    readStr (0x80 :: 0x00 :: rep) = .error .UnexpectedEnd := by
  have hx : readExact 2 ([0x80, 0x00] ++ rep) = .ok ([0x80, 0x00], rep) := by
    rw [readExact, if_pos (by rw [List.length_append]; norm_num),
      show (2 : Nat) = ([0x80, 0x00] : List Nat).length from rfl, List.take_left,
      List.drop_left]
  have h1 : readShort (0x80 :: 0x00 :: rep) = .ok (-32768, rep) := by
    rw [show readShort = readSigned 2 from rfl,
      show (0x80 : Nat) :: 0x00 :: rep = [0x80, 0x00] ++ rep from rfl, readSigned, hx]
    simp only []
    rw [show signed 2 (beNat [0x80, 0x00]) = -32768 from by decide]
  rw [readStr, h1]
  simp only []
  rw [show usizeOf (-32768) = 18446744073709518848 from by decide,
    readExact_short _ _ h]

/-! Claim theorems. -/

/-! The weak round-trip family: on encoder output, each parser either
succeeds exactly as in the round trip or fails with `UnexpectedEnd` (from fuel
exhaustion at small budgets); no other outcome is possible.  This form needs
no fuel arithmetic and feeds the truncation proofs, where earlier complete
elements are parsed with whatever fuel remains. -/

mutual

theorem pvwt_rtue : ∀ (v : Value), wfValue v = true → ∀ (fuel : Nat) (r : List Nat),
    parseValueWithTag fuel (tyOf v) (encodePayload v ++ r) = .ok (v, r) ∨
    parseValueWithTag fuel (tyOf v) (encodePayload v ++ r) = .error .UnexpectedEnd
  | .Byte i, hwf, fuel, r => by
    rw [wfValue] at hwf
    cases fuel with
    | zero => exact Or.inr rfl
    | succ f =>
      left
      rw [tyOf, encodePayload, parseValueWithTag, readByte_enc i hwf r]

  | .Short i, hwf, fuel, r => by
    rw [wfValue] at hwf
    cases fuel with
    | zero => exact Or.inr rfl
    | succ f =>
      left
      rw [tyOf, encodePayload, parseValueWithTag, readShort_enc i hwf r]

  | .Int i, hwf, fuel, r => by
    rw [wfValue] at hwf
    cases fuel with
    | zero => exact Or.inr rfl
    | succ f =>
      left
      rw [tyOf, encodePayload, parseValueWithTag, readInt_enc i hwf r]

  | .Long i, hwf, fuel, r => by
    rw [wfValue] at hwf
    cases fuel with
    | zero => exact Or.inr rfl
    | succ f =>
      left
      rw [tyOf, encodePayload, parseValueWithTag, readLong_enc i hwf r]

  | .Float bits, hwf, fuel, r => by
    rw [wfValue, decide_eq_true_eq] at hwf
    cases fuel with
    | zero => exact Or.inr rfl
    | succ f =>
      left
      rw [tyOf, encodePayload, parseValueWithTag, readFloat_enc bits hwf r]

  | .Double bits, hwf, fuel, r => by
    rw [wfValue, decide_eq_true_eq] at hwf
    cases fuel with
    | zero => exact Or.inr rfl
    | succ f =>
      left
      rw [tyOf, encodePayload, parseValueWithTag, readDouble_enc bits hwf r]

  | .ByteArray a, hwf, fuel, r => by
    rw [wfValue, Bool.and_eq_true] at hwf
    cases fuel with
    | zero => exact Or.inr rfl
    | succ f =>
      left
      rw [tyOf, encodePayload, parseValueWithTag, readByteArray_rt a hwf.1 hwf.2 r]

  | .Str s, hwf, fuel, r => by
    rw [wfValue] at hwf
    cases fuel with
    | zero => exact Or.inr rfl
    | succ f =>
      left
      rw [tyOf, encodePayload, parseValueWithTag, readStr_rt s hwf r]

  | .IntArray a, hwf, fuel, r => by
    rw [wfValue, Bool.and_eq_true] at hwf
    cases fuel with
    | zero => exact Or.inr rfl
    | succ f =>
      left
      rw [tyOf, encodePayload, parseValueWithTag, readIntArray_rt a hwf.1 hwf.2 r]

  | .LongArray a, hwf, fuel, r => by
    rw [wfValue, Bool.and_eq_true] at hwf
    cases fuel with
    | zero => exact Or.inr rfl
    | succ f =>
      left
      rw [tyOf, encodePayload, parseValueWithTag, readLongArray_rt a hwf.1 hwf.2 r]

  | .Compound c, hwf, fuel, r => by
    rw [wfValue, Bool.and_eq_true] at hwf
    cases fuel with
    | zero => exact Or.inr rfl
    | succ f =>
      rw [tyOf, encodePayload, parseValueWithTag, List.append_assoc, List.singleton_append]
      rcases entries_rtue c hwf.1 f [] r with h2 | h2
      · left
        rw [h2]
        simp only []
        rw [foldIns_nil_sorted c hwf.2]
      · right
        rw [h2]

  | .EndList, hwf, fuel, r => by
    cases fuel with
    | zero => exact Or.inr rfl
    | succ f =>
      simp only [tyOf]
      rw [parseValueWithTag]
      exact plist_rtue .EndList rfl hwf f r

  | .EmptyByteList, hwf, fuel, r => by
    cases fuel with
    | zero => exact Or.inr rfl
    | succ f =>
      simp only [tyOf]
      rw [parseValueWithTag]
      exact plist_rtue .EmptyByteList rfl hwf f r

  | .ByteList l, hwf, fuel, r => by
    cases fuel with
    | zero => exact Or.inr rfl
    | succ f =>
      simp only [tyOf]
      rw [parseValueWithTag]
      exact plist_rtue (.ByteList l) rfl hwf f r

  | .ShortList l, hwf, fuel, r => by
    cases fuel with
    | zero => exact Or.inr rfl
    | succ f =>
      simp only [tyOf]
      rw [parseValueWithTag]
      exact plist_rtue (.ShortList l) rfl hwf f r

  | .IntList l, hwf, fuel, r => by
    cases fuel with
    | zero => exact Or.inr rfl
    | succ f =>
      simp only [tyOf]
      rw [parseValueWithTag]
      exact plist_rtue (.IntList l) rfl hwf f r

  | .LongList l, hwf, fuel, r => by
    cases fuel with
    | zero => exact Or.inr rfl
    | succ f =>
      simp only [tyOf]
      rw [parseValueWithTag]
      exact plist_rtue (.LongList l) rfl hwf f r

  | .FloatList l, hwf, fuel, r => by
    cases fuel with
    | zero => exact Or.inr rfl
    | succ f =>
      simp only [tyOf]
      rw [parseValueWithTag]
      exact plist_rtue (.FloatList l) rfl hwf f r

  | .DoubleList l, hwf, fuel, r => by
    cases fuel with
    | zero => exact Or.inr rfl
    | succ f =>
      simp only [tyOf]
      rw [parseValueWithTag]
      exact plist_rtue (.DoubleList l) rfl hwf f r

  | .ByteArrayList l, hwf, fuel, r => by
    cases fuel with
    | zero => exact Or.inr rfl
    | succ f =>
      simp only [tyOf]
      rw [parseValueWithTag]
      exact plist_rtue (.ByteArrayList l) rfl hwf f r

  | .StrList l, hwf, fuel, r => by
    cases fuel with
    | zero => exact Or.inr rfl
    | succ f =>
      simp only [tyOf]
      rw [parseValueWithTag]
      exact plist_rtue (.StrList l) rfl hwf f r

  | .ListList l, hwf, fuel, r => by
    cases fuel with
    | zero => exact Or.inr rfl
    | succ f =>
      simp only [tyOf]
      rw [parseValueWithTag]
      exact plist_rtue (.ListList l) rfl hwf f r

  | .CompoundList l, hwf, fuel, r => by
    cases fuel with
    | zero => exact Or.inr rfl
    | succ f =>
      simp only [tyOf]
      rw [parseValueWithTag]
      exact plist_rtue (.CompoundList l) rfl hwf f r

  | .IntArrayList l, hwf, fuel, r => by
    cases fuel with
    | zero => exact Or.inr rfl
    | succ f =>
      simp only [tyOf]
      rw [parseValueWithTag]
      exact plist_rtue (.IntArrayList l) rfl hwf f r

  | .LongArrayList l, hwf, fuel, r => by
    cases fuel with
    | zero => exact Or.inr rfl
    | succ f =>
      simp only [tyOf]
      rw [parseValueWithTag]
      exact plist_rtue (.LongArrayList l) rfl hwf f r

termination_by v => 2 * sizeOf v + 1

theorem plist_rtue : ∀ (v : Value), isListVariant v = true → wfValue v = true →
    ∀ (fuel : Nat) (r : List Nat),
    parseList fuel (encodePayload v ++ r) = .ok (v, r) ∨
    parseList fuel (encodePayload v ++ r) = .error .UnexpectedEnd
  | .Byte i, hl, _, _, _ => Bool.noConfusion hl

  | .Short i, hl, _, _, _ => Bool.noConfusion hl

  | .Int i, hl, _, _, _ => Bool.noConfusion hl

  | .Long i, hl, _, _, _ => Bool.noConfusion hl

  | .Float bits, hl, _, _, _ => Bool.noConfusion hl

  | .Double bits, hl, _, _, _ => Bool.noConfusion hl

  | .ByteArray a, hl, _, _, _ => Bool.noConfusion hl

  | .Str s, hl, _, _, _ => Bool.noConfusion hl

  | .Compound c, hl, _, _, _ => Bool.noConfusion hl

  | .IntArray a, hl, _, _, _ => Bool.noConfusion hl

  | .LongArray a, hl, _, _, _ => Bool.noConfusion hl

  | .EndList, hl, hwf, fuel, r => by
    cases fuel with
    | zero => exact Or.inr rfl
    | succ f =>
      left
      rw [encodePayload, List.cons_append, parseList]
      simp only [readTag, Ty.tryFrom]
      rw [readInt_enc 0 (by decide) r]
  | .EmptyByteList, hl, hwf, fuel, r => by
    cases fuel with
    | zero => exact Or.inr rfl
    | succ f =>
      left
      rw [encodePayload, List.cons_append, parseList]
      simp only [readTag, Ty.tryFrom]
      rw [readInt_enc 0 (by decide) r]
      simp only []
      rw [show usizeOf 0 = 0 from rfl, if_pos rfl]
  | .ByteList l, hl, hwf, fuel, r => by
    cases fuel with
    | zero => exact Or.inr rfl
    | succ f =>
      left
      rw [wfValue, Bool.and_eq_true, Bool.and_eq_true] at hwf
      obtain ⟨⟨hne, hlen⟩, hall⟩ := hwf
      simp only [wfLen, decide_eq_true_eq] at hlen
      rw [encodePayload, List.cons_append, parseList]
      simp only [readTag, Ty.tryFrom]
      rw [List.append_assoc, readInt_enc (l.length : Int)
        (by simp only [isI32, Bool.and_eq_true, decide_eq_true_eq]; omega) _]
      simp only []
      rw [usizeOf_natCast _ (by omega)]
      rw [if_neg (show ¬l.length = 0 from by
        cases l with
        | nil => simp at hne
        | cons x xs => simp)]
      rw [readN_rt readByte (encSigned 1) l
        (fun x hx r2 => readByte_enc x (List.all_eq_true.mp hall x hx) r2) r]

  | .ShortList l, hl, hwf, fuel, r => by
    cases fuel with
    | zero => exact Or.inr rfl
    | succ f =>
      left
      rw [wfValue, Bool.and_eq_true] at hwf
      obtain ⟨hlen, hall⟩ := hwf
      simp only [wfLen, decide_eq_true_eq] at hlen
      rw [encodePayload, List.cons_append, parseList]
      simp only [readTag, Ty.tryFrom]
      rw [List.append_assoc, readInt_enc (l.length : Int)
        (by simp only [isI32, Bool.and_eq_true, decide_eq_true_eq]; omega) _]
      simp only []
      rw [usizeOf_natCast _ (by omega)]
      rw [readN_rt readShort (encSigned 2) l
        (fun x hx r2 => readShort_enc x (List.all_eq_true.mp hall x hx) r2) r]

  | .IntList l, hl, hwf, fuel, r => by
    cases fuel with
    | zero => exact Or.inr rfl
    | succ f =>
      left
      rw [wfValue, Bool.and_eq_true] at hwf
      obtain ⟨hlen, hall⟩ := hwf
      simp only [wfLen, decide_eq_true_eq] at hlen
      rw [encodePayload, List.cons_append, parseList]
      simp only [readTag, Ty.tryFrom]
      rw [List.append_assoc, readInt_enc (l.length : Int)
        (by simp only [isI32, Bool.and_eq_true, decide_eq_true_eq]; omega) _]
      simp only []
      rw [usizeOf_natCast _ (by omega)]
      rw [readN_rt readInt (encSigned 4) l
        (fun x hx r2 => readInt_enc x (List.all_eq_true.mp hall x hx) r2) r]

  | .LongList l, hl, hwf, fuel, r => by
    cases fuel with
    | zero => exact Or.inr rfl
    | succ f =>
      left
      rw [wfValue, Bool.and_eq_true] at hwf
      obtain ⟨hlen, hall⟩ := hwf
      simp only [wfLen, decide_eq_true_eq] at hlen
      rw [encodePayload, List.cons_append, parseList]
      simp only [readTag, Ty.tryFrom]
      rw [List.append_assoc, readInt_enc (l.length : Int)
        (by simp only [isI32, Bool.and_eq_true, decide_eq_true_eq]; omega) _]
      simp only []
      rw [usizeOf_natCast _ (by omega)]
      rw [readN_rt readLong (encSigned 8) l
        (fun x hx r2 => readLong_enc x (List.all_eq_true.mp hall x hx) r2) r]

  | .FloatList l, hl, hwf, fuel, r => by
    cases fuel with
    | zero => exact Or.inr rfl
    | succ f =>
      left
      rw [wfValue, Bool.and_eq_true] at hwf
      obtain ⟨hlen, hall⟩ := hwf
      simp only [wfLen, decide_eq_true_eq] at hlen
      rw [encodePayload, List.cons_append, parseList]
      simp only [readTag, Ty.tryFrom]
      rw [List.append_assoc, readInt_enc (l.length : Int)
        (by simp only [isI32, Bool.and_eq_true, decide_eq_true_eq]; omega) _]
      simp only []
      rw [usizeOf_natCast _ (by omega)]
      rw [readN_rt readFloat (beBytes 4) l
        (fun x hx r2 => readFloat_enc x (by
          have := List.all_eq_true.mp hall x hx
          simpa using this) r2) r]

  | .DoubleList l, hl, hwf, fuel, r => by
    cases fuel with
    | zero => exact Or.inr rfl
    | succ f =>
      left
      rw [wfValue, Bool.and_eq_true] at hwf
      obtain ⟨hlen, hall⟩ := hwf
      simp only [wfLen, decide_eq_true_eq] at hlen
      rw [encodePayload, List.cons_append, parseList]
      simp only [readTag, Ty.tryFrom]
      rw [List.append_assoc, readInt_enc (l.length : Int)
        (by simp only [isI32, Bool.and_eq_true, decide_eq_true_eq]; omega) _]
      simp only []
      rw [usizeOf_natCast _ (by omega)]
      rw [readN_rt readDouble (beBytes 8) l
        (fun x hx r2 => readDouble_enc x (by
          have := List.all_eq_true.mp hall x hx
          simpa using this) r2) r]

  | .ByteArrayList l, hl, hwf, fuel, r => by
    cases fuel with
    | zero => exact Or.inr rfl
    | succ f =>
      left
      rw [wfValue, Bool.and_eq_true] at hwf
      obtain ⟨hlen, hall⟩ := hwf
      simp only [wfLen, decide_eq_true_eq] at hlen
      rw [encodePayload, List.cons_append, parseList]
      simp only [readTag, Ty.tryFrom]
      rw [List.append_assoc, readInt_enc (l.length : Int)
        (by simp only [isI32, Bool.and_eq_true, decide_eq_true_eq]; omega) _]
      simp only []
      rw [usizeOf_natCast _ (by omega)]
      rw [readN_rt readByteArray encByteArray l
        (fun x hx r2 => by
          have hx2 := List.all_eq_true.mp hall x hx
          rw [Bool.and_eq_true] at hx2
          exact readByteArray_rt x hx2.1 hx2.2 r2) r]

  | .StrList l, hl, hwf, fuel, r => by
    cases fuel with
    | zero => exact Or.inr rfl
    | succ f =>
      left
      rw [wfValue, Bool.and_eq_true] at hwf
      obtain ⟨hlen, hall⟩ := hwf
      simp only [wfLen, decide_eq_true_eq] at hlen
      rw [encodePayload, List.cons_append, parseList]
      simp only [readTag, Ty.tryFrom]
      rw [List.append_assoc, readInt_enc (l.length : Int)
        (by simp only [isI32, Bool.and_eq_true, decide_eq_true_eq]; omega) _]
      simp only []
      rw [usizeOf_natCast _ (by omega)]
      rw [readN_rt readStr encStr l
        (fun x hx r2 => readStr_rt x (List.all_eq_true.mp hall x hx) r2) r]

  | .IntArrayList l, hl, hwf, fuel, r => by
    cases fuel with
    | zero => exact Or.inr rfl
    | succ f =>
      left
      rw [wfValue, Bool.and_eq_true] at hwf
      obtain ⟨hlen, hall⟩ := hwf
      simp only [wfLen, decide_eq_true_eq] at hlen
      rw [encodePayload, List.cons_append, parseList]
      simp only [readTag, Ty.tryFrom]
      rw [List.append_assoc, readInt_enc (l.length : Int)
        (by simp only [isI32, Bool.and_eq_true, decide_eq_true_eq]; omega) _]
      simp only []
      rw [usizeOf_natCast _ (by omega)]
      rw [readN_rt readIntArray encIntArray l
        (fun x hx r2 => by
          have hx2 := List.all_eq_true.mp hall x hx
          rw [Bool.and_eq_true] at hx2
          exact readIntArray_rt x hx2.1 hx2.2 r2) r]

  | .LongArrayList l, hl, hwf, fuel, r => by
    cases fuel with
    | zero => exact Or.inr rfl
    | succ f =>
      left
      rw [wfValue, Bool.and_eq_true] at hwf
      obtain ⟨hlen, hall⟩ := hwf
      simp only [wfLen, decide_eq_true_eq] at hlen
      rw [encodePayload, List.cons_append, parseList]
      simp only [readTag, Ty.tryFrom]
      rw [List.append_assoc, readInt_enc (l.length : Int)
        (by simp only [isI32, Bool.and_eq_true, decide_eq_true_eq]; omega) _]
      simp only []
      rw [usizeOf_natCast _ (by omega)]
      rw [readN_rt readLongArray encLongArray l
        (fun x hx r2 => by
          have hx2 := List.all_eq_true.mp hall x hx
          rw [Bool.and_eq_true] at hx2
          exact readLongArray_rt x hx2.1 hx2.2 r2) r]

  | .ListList l, hl, hwf, fuel, r => by
    cases fuel with
    | zero => exact Or.inr rfl
    | succ f =>
      rw [wfValue, Bool.and_eq_true] at hwf
      obtain ⟨hlen, helems⟩ := hwf
      simp only [wfLen, decide_eq_true_eq] at hlen
      rw [encodePayload, List.cons_append, parseList]
      simp only [readTag, Ty.tryFrom]
      rw [List.append_assoc, readInt_enc (l.length : Int)
        (by simp only [isI32, Bool.and_eq_true, decide_eq_true_eq]; omega) _]
      simp only []
      rw [usizeOf_natCast _ (by omega)]
      rcases values_rtue l helems f r with h2 | h2
      · left
        rw [h2]
      · right
        rw [h2]
  | .CompoundList l, hl, hwf, fuel, r => by
    cases fuel with
    | zero => exact Or.inr rfl
    | succ f =>
      rw [wfValue, Bool.and_eq_true] at hwf
      obtain ⟨hlen, helems⟩ := hwf
      simp only [wfLen, decide_eq_true_eq] at hlen
      rw [encodePayload, List.cons_append, parseList]
      simp only [readTag, Ty.tryFrom]
      rw [List.append_assoc, readInt_enc (l.length : Int)
        (by simp only [isI32, Bool.and_eq_true, decide_eq_true_eq]; omega) _]
      simp only []
      rw [usizeOf_natCast _ (by omega)]
      rcases comps_rtue l helems f r with h2 | h2
      · left
        rw [h2]
      · right
        rw [h2]
termination_by v => 2 * sizeOf v

theorem entries_rtue : ∀ (c : Compound), wfEntriesEach c = true →
    ∀ (fuel : Nat) (acc : Compound) (r : List Nat),
    readCompoundAux fuel acc (encEntries c ++ 0 :: r) = .ok (foldIns acc c, r) ∨
    readCompoundAux fuel acc (encEntries c ++ 0 :: r) = .error .UnexpectedEnd
  | [], hwf, fuel, acc, r => by
    cases fuel with
    | zero => exact Or.inr rfl
    | succ f =>
      left
      rw [encEntries, List.nil_append, readCompoundAux]
      simp [readTag, Ty.tryFrom, foldIns]
  | (k, v) :: tl, hwf, fuel, acc, r => by
    cases fuel with
    | zero => exact Or.inr rfl
    | succ f =>
      rw [wfEntriesEach, Bool.and_eq_true, Bool.and_eq_true] at hwf
      obtain ⟨⟨hk, hv⟩, htl⟩ := hwf
      rw [encEntries]
      simp only [List.cons_append, List.append_assoc]
      rw [readCompoundAux, readTag, tryFrom_tagByte]
      simp only []
      rw [if_neg (tyOf_ne_End v)]
      rw [readStr_rt k hk (encodePayload v ++ (encEntries tl ++ 0 :: r))]
      simp only []
      rcases pvwt_rtue v hv f (encEntries tl ++ 0 :: r) with h1 | h1
      · rw [h1]
        simp only []
        rcases entries_rtue tl htl f (Compound.insert k v acc) r with h2 | h2
        · left
          rw [h2]
          rfl
        · right
          rw [h2]
      · right
        rw [h1]
termination_by c => 2 * sizeOf c

theorem values_rtue : ∀ (l : List Value), wfListElems l = true →
    ∀ (fuel : Nat) (r : List Nat),
    parseListList fuel l.length (encValues l ++ r) = .ok (l, r) ∨
    parseListList fuel l.length (encValues l ++ r) = .error .UnexpectedEnd
  | [], h, fuel, r => by
    cases fuel with
    | zero => exact Or.inr rfl
    | succ f =>
      left
      rw [encValues, List.nil_append, List.length_nil, parseListList]
  | v :: tl, h, fuel, r => by
    cases fuel with
    | zero => exact Or.inr rfl
    | succ f =>
      rw [wfListElems, Bool.and_eq_true, Bool.and_eq_true] at h
      obtain ⟨⟨hlv, hv⟩, htl⟩ := h
      rw [encValues, List.length_cons, List.append_assoc, parseListList]
      rcases plist_rtue v hlv hv f (encValues tl ++ r) with h1 | h1
      · rw [h1]
        simp only []
        rcases values_rtue tl htl f r with h2 | h2
        · left
          rw [h2]
        · right
          rw [h2]
      · right
        rw [h1]
termination_by l => 2 * sizeOf l

theorem comps_rtue : ∀ (l : List (List (RStr × Value))), wfComps l = true →
    ∀ (fuel : Nat) (r : List Nat),
    parseCompoundList fuel l.length (encCompounds l ++ r) = .ok (l, r) ∨
    parseCompoundList fuel l.length (encCompounds l ++ r) = .error .UnexpectedEnd
  | [], h, fuel, r => by
    cases fuel with
    | zero => exact Or.inr rfl
    | succ f =>
      left
      rw [encCompounds, List.nil_append, List.length_nil, parseCompoundList]
  | c :: tl, h, fuel, r => by
    cases fuel with
    | zero => exact Or.inr rfl
    | succ f =>
      rw [wfComps, Bool.and_eq_true, Bool.and_eq_true] at h
      obtain ⟨⟨hc, hsort⟩, htl⟩ := h
      rw [encCompounds, List.length_cons, List.append_assoc, List.append_assoc,
        parseCompoundList, List.singleton_append]
      rcases entries_rtue c hc f [] (encCompounds tl ++ r) with h1 | h1
      · rw [h1]
        simp only []
        rw [foldIns_nil_sorted c hsort]
        rcases comps_rtue tl htl f r with h2 | h2
        · left
          rw [h2]
        · right
          rw [h2]
      · right
        rw [h1]
termination_by l => 2 * sizeOf l

end

/-! The truncation family: cutting the stream anywhere strictly inside an
encoded payload (or anywhere in a compound body before its terminator) makes
every parser fail with `UnexpectedEnd`, at every fuel budget. -/

mutual

theorem pvwt_tr : ∀ (v : Value), wfValue v = true → ∀ (k : Nat),
    k < (encodePayload v).length → ∀ (fuel : Nat),
    parseValueWithTag fuel (tyOf v) ((encodePayload v).take k) = .error .UnexpectedEnd
  | .Byte i, hwf, k, hk, fuel => by
    cases fuel with
    | zero => rfl
    | succ f =>
      rw [encodePayload, encSigned_length] at hk
      rw [tyOf, encodePayload, parseValueWithTag,
        show readByte = readSigned 1 from rfl,
        readSigned_short_input 1 _ (by rw [List.length_take, encSigned_length]; omega)]

  | .Short i, hwf, k, hk, fuel => by
    cases fuel with
    | zero => rfl
    | succ f =>
      rw [encodePayload, encSigned_length] at hk
      rw [tyOf, encodePayload, parseValueWithTag,
        show readShort = readSigned 2 from rfl,
        readSigned_short_input 2 _ (by rw [List.length_take, encSigned_length]; omega)]

  | .Int i, hwf, k, hk, fuel => by
    cases fuel with
    | zero => rfl
    | succ f =>
      rw [encodePayload, encSigned_length] at hk
      rw [tyOf, encodePayload, parseValueWithTag,
        show readInt = readSigned 4 from rfl,
        readSigned_short_input 4 _ (by rw [List.length_take, encSigned_length]; omega)]

  | .Long i, hwf, k, hk, fuel => by
    cases fuel with
    | zero => rfl
    | succ f =>
      rw [encodePayload, encSigned_length] at hk
      rw [tyOf, encodePayload, parseValueWithTag,
        show readLong = readSigned 8 from rfl,
        readSigned_short_input 8 _ (by rw [List.length_take, encSigned_length]; omega)]

  | .Float bits, hwf, k, hk, fuel => by
    cases fuel with
    | zero => rfl
    | succ f =>
      rw [encodePayload, beBytes_length] at hk
      rw [tyOf, encodePayload, parseValueWithTag,
        show readFloat = readUnsigned 4 from rfl,
        readUnsigned_short_input 4 _ (by rw [List.length_take, beBytes_length]; omega)]

  | .Double bits, hwf, k, hk, fuel => by
    cases fuel with
    | zero => rfl
    | succ f =>
      rw [encodePayload, beBytes_length] at hk
      rw [tyOf, encodePayload, parseValueWithTag,
        show readDouble = readUnsigned 8 from rfl,
        readUnsigned_short_input 8 _ (by rw [List.length_take, beBytes_length]; omega)]

  | .ByteArray a, hwf, k, hk, fuel => by
    rw [wfValue, Bool.and_eq_true] at hwf
    cases fuel with
    | zero => rfl
    | succ f =>
      rw [encodePayload] at hk
      rw [tyOf, encodePayload, parseValueWithTag, readByteArray_tr a hwf.1 hwf.2 k hk]

  | .Str s, hwf, k, hk, fuel => by
    cases fuel with
    | zero => rfl
    | succ f =>
      rw [wfValue] at hwf
      rw [encodePayload] at hk
      rw [tyOf, encodePayload, parseValueWithTag, readStr_tr s hwf k hk]

  | .Compound c, hwf, k, hk, fuel => by
    rw [wfValue, Bool.and_eq_true] at hwf
    cases fuel with
    | zero => rfl
    | succ f =>
      rw [encodePayload, List.length_append, List.length_singleton] at hk
      have hsplit : (encodePayload (.Compound c)).take k = (encEntries c).take k := by
        rw [encodePayload, List.take_append_eq_append_take,
          show k - (encEntries c).length = 0 by omega, List.take_zero, List.append_nil]
      rw [tyOf, hsplit, parseValueWithTag, entries_tr c hwf.1 k (by omega) f []]

  | .IntArray a, hwf, k, hk, fuel => by
    rw [wfValue, Bool.and_eq_true] at hwf
    cases fuel with
    | zero => rfl
    | succ f =>
      rw [encodePayload] at hk
      rw [tyOf, encodePayload, parseValueWithTag, readIntArray_tr a hwf.1 hwf.2 k hk]

  | .LongArray a, hwf, k, hk, fuel => by
    rw [wfValue, Bool.and_eq_true] at hwf
    cases fuel with
    | zero => rfl
    | succ f =>
      rw [encodePayload] at hk
      rw [tyOf, encodePayload, parseValueWithTag, readLongArray_tr a hwf.1 hwf.2 k hk]

  | .EndList, hwf, k, hk, fuel => by
    cases fuel with
    | zero => rfl
    | succ f =>
      simp only [tyOf]
      rw [parseValueWithTag]
      exact plist_tr .EndList rfl hwf k hk f

  | .EmptyByteList, hwf, k, hk, fuel => by
    cases fuel with
    | zero => rfl
    | succ f =>
      simp only [tyOf]
      rw [parseValueWithTag]
      exact plist_tr .EmptyByteList rfl hwf k hk f

  | .ByteList l, hwf, k, hk, fuel => by
    cases fuel with
    | zero => rfl
    | succ f =>
      simp only [tyOf]
      rw [parseValueWithTag]
      exact plist_tr (.ByteList l) rfl hwf k hk f

  | .ShortList l, hwf, k, hk, fuel => by
    cases fuel with
    | zero => rfl
    | succ f =>
      simp only [tyOf]
      rw [parseValueWithTag]
      exact plist_tr (.ShortList l) rfl hwf k hk f

  | .IntList l, hwf, k, hk, fuel => by
    cases fuel with
    | zero => rfl
    | succ f =>
      simp only [tyOf]
      rw [parseValueWithTag]
      exact plist_tr (.IntList l) rfl hwf k hk f

  | .LongList l, hwf, k, hk, fuel => by
    cases fuel with
    | zero => rfl
    | succ f =>
      simp only [tyOf]
      rw [parseValueWithTag]
      exact plist_tr (.LongList l) rfl hwf k hk f

  | .FloatList l, hwf, k, hk, fuel => by
    cases fuel with
    | zero => rfl
    | succ f =>
      simp only [tyOf]
      rw [parseValueWithTag]
      exact plist_tr (.FloatList l) rfl hwf k hk f

  | .DoubleList l, hwf, k, hk, fuel => by
    cases fuel with
    | zero => rfl
    | succ f =>
      simp only [tyOf]
      rw [parseValueWithTag]
      exact plist_tr (.DoubleList l) rfl hwf k hk f

  | .ByteArrayList l, hwf, k, hk, fuel => by
    cases fuel with
    | zero => rfl
    | succ f =>
      simp only [tyOf]
      rw [parseValueWithTag]
      exact plist_tr (.ByteArrayList l) rfl hwf k hk f

  | .StrList l, hwf, k, hk, fuel => by
    cases fuel with
    | zero => rfl
    | succ f =>
      simp only [tyOf]
      rw [parseValueWithTag]
      exact plist_tr (.StrList l) rfl hwf k hk f

  | .ListList l, hwf, k, hk, fuel => by
    cases fuel with
    | zero => rfl
    | succ f =>
      simp only [tyOf]
      rw [parseValueWithTag]
      exact plist_tr (.ListList l) rfl hwf k hk f

  | .CompoundList l, hwf, k, hk, fuel => by
    cases fuel with
    | zero => rfl
    | succ f =>
      simp only [tyOf]
      rw [parseValueWithTag]
      exact plist_tr (.CompoundList l) rfl hwf k hk f

  | .IntArrayList l, hwf, k, hk, fuel => by
    cases fuel with
    | zero => rfl
    | succ f =>
      simp only [tyOf]
      rw [parseValueWithTag]
      exact plist_tr (.IntArrayList l) rfl hwf k hk f

  | .LongArrayList l, hwf, k, hk, fuel => by
    cases fuel with
    | zero => rfl
    | succ f =>
      simp only [tyOf]
      rw [parseValueWithTag]
      exact plist_tr (.LongArrayList l) rfl hwf k hk f

termination_by v => 2 * sizeOf v + 1

theorem plist_tr : ∀ (v : Value), isListVariant v = true → wfValue v = true →
    ∀ (k : Nat), k < (encodePayload v).length → ∀ (fuel : Nat),
    parseList fuel ((encodePayload v).take k) = .error .UnexpectedEnd
  | .Byte i, hl, _, _, _, _ => Bool.noConfusion hl

  | .Short i, hl, _, _, _, _ => Bool.noConfusion hl

  | .Int i, hl, _, _, _, _ => Bool.noConfusion hl

  | .Long i, hl, _, _, _, _ => Bool.noConfusion hl

  | .Float bits, hl, _, _, _, _ => Bool.noConfusion hl

  | .Double bits, hl, _, _, _, _ => Bool.noConfusion hl

  | .ByteArray a, hl, _, _, _, _ => Bool.noConfusion hl

  | .Str s, hl, _, _, _, _ => Bool.noConfusion hl

  | .Compound c, hl, _, _, _, _ => Bool.noConfusion hl

  | .IntArray a, hl, _, _, _, _ => Bool.noConfusion hl

  | .LongArray a, hl, _, _, _, _ => Bool.noConfusion hl

  | .EndList, hl, hwf, k, hk, fuel => by
    cases fuel with
    | zero => rfl
    | succ f =>
      cases k with
      | zero =>
        rw [List.take_zero]
        rfl
      | succ j =>
        have hj : j < 4 := by
          rw [encodePayload, List.length_cons, encSigned_length] at hk
          omega
        rw [encodePayload, List.take_succ_cons, parseList]
        simp only [readTag, Ty.tryFrom]
        rw [show readInt = readSigned 4 from rfl,
          readSigned_short_input 4 _ (by rw [List.length_take, encSigned_length]; omega)]

  | .EmptyByteList, hl, hwf, k, hk, fuel => by
    cases fuel with
    | zero => rfl
    | succ f =>
      cases k with
      | zero =>
        rw [List.take_zero]
        rfl
      | succ j =>
        have hj : j < 4 := by
          rw [encodePayload, List.length_cons, encSigned_length] at hk
          omega
        rw [encodePayload, List.take_succ_cons, parseList]
        simp only [readTag, Ty.tryFrom]
        rw [show readInt = readSigned 4 from rfl,
          readSigned_short_input 4 _ (by rw [List.length_take, encSigned_length]; omega)]

  | .ByteList l, hl, hwf, k, hk, fuel => by
    rw [wfValue, Bool.and_eq_true, Bool.and_eq_true] at hwf
    obtain ⟨⟨hne, hlen⟩, hall⟩ := hwf
    simp only [wfLen, decide_eq_true_eq] at hlen
    cases fuel with
    | zero => rfl
    | succ f =>
      cases k with
      | zero =>
        rw [List.take_zero]
        rfl
      | succ j =>
        have hke : j < 4 + (encList (encSigned 1) l).length := by
          rw [encodePayload, List.length_cons, List.length_append, encSigned_length] at hk
          omega
        rw [encodePayload, List.take_succ_cons, parseList]
        simp only [readTag, Ty.tryFrom]
        rcases lt_or_ge j 4 with hj | hj
        · rw [show readInt = readSigned 4 from rfl,
            readSigned_short_input 4 _
              (by rw [List.length_take, List.length_append, encSigned_length]; omega)]
        · rw [List.take_append_eq_append_take, encSigned_length,
            List.take_of_length_le (by rw [encSigned_length]; omega),
            readInt_enc (l.length : Int)
              (by simp only [isI32, Bool.and_eq_true, decide_eq_true_eq]; omega) _]
          simp only []
          rw [usizeOf_natCast _ (by omega)]
          rw [if_neg (show ¬l.length = 0 from by
            cases l with
            | nil => simp at hne
            | cons x xs => simp)]
          rw [readN_tr readByte (encSigned 1) l
            (fun x hx r2 => readByte_enc x (List.all_eq_true.mp hall x hx) r2)
            (fun x hx i hi => by
              rw [encSigned_length] at hi
              exact readSigned_short_input 1 _ (by rw [List.length_take, encSigned_length]; omega))
            (j - 4) (by omega)]

  | .ShortList l, hl, hwf, k, hk, fuel => by
    rw [wfValue, Bool.and_eq_true] at hwf
    obtain ⟨hlen, hall⟩ := hwf
    simp only [wfLen, decide_eq_true_eq] at hlen
    cases fuel with
    | zero => rfl
    | succ f =>
      cases k with
      | zero =>
        rw [List.take_zero]
        rfl
      | succ j =>
        have hke : j < 4 + (encList (encSigned 2) l).length := by
          rw [encodePayload, List.length_cons, List.length_append, encSigned_length] at hk
          omega
        rw [encodePayload, List.take_succ_cons, parseList]
        simp only [readTag, Ty.tryFrom]
        rcases lt_or_ge j 4 with hj | hj
        · rw [show readInt = readSigned 4 from rfl,
            readSigned_short_input 4 _
              (by rw [List.length_take, List.length_append, encSigned_length]; omega)]
        · rw [List.take_append_eq_append_take, encSigned_length,
            List.take_of_length_le (by rw [encSigned_length]; omega),
            readInt_enc (l.length : Int)
              (by simp only [isI32, Bool.and_eq_true, decide_eq_true_eq]; omega) _]
          simp only []
          rw [usizeOf_natCast _ (by omega)]
          rw [readN_tr readShort (encSigned 2) l
            (fun x hx r2 => readShort_enc x (List.all_eq_true.mp hall x hx) r2)
            (fun x hx i hi => by
              rw [encSigned_length] at hi
              exact readSigned_short_input 2 _ (by rw [List.length_take, encSigned_length]; omega))
            (j - 4) (by omega)]

  | .IntList l, hl, hwf, k, hk, fuel => by
    rw [wfValue, Bool.and_eq_true] at hwf
    obtain ⟨hlen, hall⟩ := hwf
    simp only [wfLen, decide_eq_true_eq] at hlen
    cases fuel with
    | zero => rfl
    | succ f =>
      cases k with
      | zero =>
        rw [List.take_zero]
        rfl
      | succ j =>
        have hke : j < 4 + (encList (encSigned 4) l).length := by
          rw [encodePayload, List.length_cons, List.length_append, encSigned_length] at hk
          omega
        rw [encodePayload, List.take_succ_cons, parseList]
        simp only [readTag, Ty.tryFrom]
        rcases lt_or_ge j 4 with hj | hj
        · rw [show readInt = readSigned 4 from rfl,
            readSigned_short_input 4 _
              (by rw [List.length_take, List.length_append, encSigned_length]; omega)]
        · rw [List.take_append_eq_append_take, encSigned_length,
            List.take_of_length_le (by rw [encSigned_length]; omega),
            readInt_enc (l.length : Int)
              (by simp only [isI32, Bool.and_eq_true, decide_eq_true_eq]; omega) _]
          simp only []
          rw [usizeOf_natCast _ (by omega)]
          rw [readN_tr readInt (encSigned 4) l
            (fun x hx r2 => readInt_enc x (List.all_eq_true.mp hall x hx) r2)
            (fun x hx i hi => by
              rw [encSigned_length] at hi
              exact readSigned_short_input 4 _ (by rw [List.length_take, encSigned_length]; omega))
            (j - 4) (by omega)]

  | .LongList l, hl, hwf, k, hk, fuel => by
    rw [wfValue, Bool.and_eq_true] at hwf
    obtain ⟨hlen, hall⟩ := hwf
    simp only [wfLen, decide_eq_true_eq] at hlen
    cases fuel with
    | zero => rfl
    | succ f =>
      cases k with
      | zero =>
        rw [List.take_zero]
        rfl
      | succ j =>
        have hke : j < 4 + (encList (encSigned 8) l).length := by
          rw [encodePayload, List.length_cons, List.length_append, encSigned_length] at hk
          omega
        rw [encodePayload, List.take_succ_cons, parseList]
        simp only [readTag, Ty.tryFrom]
        rcases lt_or_ge j 4 with hj | hj
        · rw [show readInt = readSigned 4 from rfl,
            readSigned_short_input 4 _
              (by rw [List.length_take, List.length_append, encSigned_length]; omega)]
        · rw [List.take_append_eq_append_take, encSigned_length,
            List.take_of_length_le (by rw [encSigned_length]; omega),
            readInt_enc (l.length : Int)
              (by simp only [isI32, Bool.and_eq_true, decide_eq_true_eq]; omega) _]
          simp only []
          rw [usizeOf_natCast _ (by omega)]
          rw [readN_tr readLong (encSigned 8) l
            (fun x hx r2 => readLong_enc x (List.all_eq_true.mp hall x hx) r2)
            (fun x hx i hi => by
              rw [encSigned_length] at hi
              exact readSigned_short_input 8 _ (by rw [List.length_take, encSigned_length]; omega))
            (j - 4) (by omega)]

  | .FloatList l, hl, hwf, k, hk, fuel => by
    rw [wfValue, Bool.and_eq_true] at hwf
    obtain ⟨hlen, hall⟩ := hwf
    simp only [wfLen, decide_eq_true_eq] at hlen
    cases fuel with
    | zero => rfl
    | succ f =>
      cases k with
      | zero =>
        rw [List.take_zero]
        rfl
      | succ j =>
        have hke : j < 4 + (encList (beBytes 4) l).length := by
          rw [encodePayload, List.length_cons, List.length_append, encSigned_length] at hk
          omega
        rw [encodePayload, List.take_succ_cons, parseList]
        simp only [readTag, Ty.tryFrom]
        rcases lt_or_ge j 4 with hj | hj
        · rw [show readInt = readSigned 4 from rfl,
            readSigned_short_input 4 _
              (by rw [List.length_take, List.length_append, encSigned_length]; omega)]
        · rw [List.take_append_eq_append_take, encSigned_length,
            List.take_of_length_le (by rw [encSigned_length]; omega),
            readInt_enc (l.length : Int)
              (by simp only [isI32, Bool.and_eq_true, decide_eq_true_eq]; omega) _]
          simp only []
          rw [usizeOf_natCast _ (by omega)]
          rw [readN_tr readFloat (beBytes 4) l
            (fun x hx r2 => readFloat_enc x (by
              have := List.all_eq_true.mp hall x hx
              simpa using this) r2)
            (fun x hx i hi => by
              rw [beBytes_length] at hi
              exact readUnsigned_short_input 4 _ (by rw [List.length_take, beBytes_length]; omega))
            (j - 4) (by omega)]

  | .DoubleList l, hl, hwf, k, hk, fuel => by
    rw [wfValue, Bool.and_eq_true] at hwf
    obtain ⟨hlen, hall⟩ := hwf
    simp only [wfLen, decide_eq_true_eq] at hlen
    cases fuel with
    | zero => rfl
    | succ f =>
      cases k with
      | zero =>
        rw [List.take_zero]
        rfl
      | succ j =>
        have hke : j < 4 + (encList (beBytes 8) l).length := by
          rw [encodePayload, List.length_cons, List.length_append, encSigned_length] at hk
          omega
        rw [encodePayload, List.take_succ_cons, parseList]
        simp only [readTag, Ty.tryFrom]
        rcases lt_or_ge j 4 with hj | hj
        · rw [show readInt = readSigned 4 from rfl,
            readSigned_short_input 4 _
              (by rw [List.length_take, List.length_append, encSigned_length]; omega)]
        · rw [List.take_append_eq_append_take, encSigned_length,
            List.take_of_length_le (by rw [encSigned_length]; omega),
            readInt_enc (l.length : Int)
              (by simp only [isI32, Bool.and_eq_true, decide_eq_true_eq]; omega) _]
          simp only []
          rw [usizeOf_natCast _ (by omega)]
          rw [readN_tr readDouble (beBytes 8) l
            (fun x hx r2 => readDouble_enc x (by
              have := List.all_eq_true.mp hall x hx
              simpa using this) r2)
            (fun x hx i hi => by
              rw [beBytes_length] at hi
              exact readUnsigned_short_input 8 _ (by rw [List.length_take, beBytes_length]; omega))
            (j - 4) (by omega)]

  | .ByteArrayList l, hl, hwf, k, hk, fuel => by
    rw [wfValue, Bool.and_eq_true] at hwf
    obtain ⟨hlen, hall⟩ := hwf
    simp only [wfLen, decide_eq_true_eq] at hlen
    cases fuel with
    | zero => rfl
    | succ f =>
      cases k with
      | zero =>
        rw [List.take_zero]
        rfl
      | succ j =>
        have hke : j < 4 + (encList encByteArray l).length := by
          rw [encodePayload, List.length_cons, List.length_append, encSigned_length] at hk
          omega
        rw [encodePayload, List.take_succ_cons, parseList]
        simp only [readTag, Ty.tryFrom]
        rcases lt_or_ge j 4 with hj | hj
        · rw [show readInt = readSigned 4 from rfl,
            readSigned_short_input 4 _
              (by rw [List.length_take, List.length_append, encSigned_length]; omega)]
        · rw [List.take_append_eq_append_take, encSigned_length,
            List.take_of_length_le (by rw [encSigned_length]; omega),
            readInt_enc (l.length : Int)
              (by simp only [isI32, Bool.and_eq_true, decide_eq_true_eq]; omega) _]
          simp only []
          rw [usizeOf_natCast _ (by omega)]
          rw [readN_tr readByteArray encByteArray l
            (fun x hx r2 => by
              have hx2 := List.all_eq_true.mp hall x hx
              rw [Bool.and_eq_true] at hx2
              exact readByteArray_rt x hx2.1 hx2.2 r2)
            (fun x hx i hi => by
              have hx2 := List.all_eq_true.mp hall x hx
              rw [Bool.and_eq_true] at hx2
              exact readByteArray_tr x hx2.1 hx2.2 i hi)
            (j - 4) (by omega)]

  | .IntArrayList l, hl, hwf, k, hk, fuel => by
    rw [wfValue, Bool.and_eq_true] at hwf
    obtain ⟨hlen, hall⟩ := hwf
    simp only [wfLen, decide_eq_true_eq] at hlen
    cases fuel with
    | zero => rfl
    | succ f =>
      cases k with
      | zero =>
        rw [List.take_zero]
        rfl
      | succ j =>
        have hke : j < 4 + (encList encIntArray l).length := by
          rw [encodePayload, List.length_cons, List.length_append, encSigned_length] at hk
          omega
        rw [encodePayload, List.take_succ_cons, parseList]
        simp only [readTag, Ty.tryFrom]
        rcases lt_or_ge j 4 with hj | hj
        · rw [show readInt = readSigned 4 from rfl,
            readSigned_short_input 4 _
              (by rw [List.length_take, List.length_append, encSigned_length]; omega)]
        · rw [List.take_append_eq_append_take, encSigned_length,
            List.take_of_length_le (by rw [encSigned_length]; omega),
            readInt_enc (l.length : Int)
              (by simp only [isI32, Bool.and_eq_true, decide_eq_true_eq]; omega) _]
          simp only []
          rw [usizeOf_natCast _ (by omega)]
          rw [readN_tr readIntArray encIntArray l
            (fun x hx r2 => by
              have hx2 := List.all_eq_true.mp hall x hx
              rw [Bool.and_eq_true] at hx2
              exact readIntArray_rt x hx2.1 hx2.2 r2)
            (fun x hx i hi => by
              have hx2 := List.all_eq_true.mp hall x hx
              rw [Bool.and_eq_true] at hx2
              exact readIntArray_tr x hx2.1 hx2.2 i hi)
            (j - 4) (by omega)]

  | .LongArrayList l, hl, hwf, k, hk, fuel => by
    rw [wfValue, Bool.and_eq_true] at hwf
    obtain ⟨hlen, hall⟩ := hwf
    simp only [wfLen, decide_eq_true_eq] at hlen
    cases fuel with
    | zero => rfl
    | succ f =>
      cases k with
      | zero =>
        rw [List.take_zero]
        rfl
      | succ j =>
        have hke : j < 4 + (encList encLongArray l).length := by
          rw [encodePayload, List.length_cons, List.length_append, encSigned_length] at hk
          omega
        rw [encodePayload, List.take_succ_cons, parseList]
        simp only [readTag, Ty.tryFrom]
        rcases lt_or_ge j 4 with hj | hj
        · rw [show readInt = readSigned 4 from rfl,
            readSigned_short_input 4 _
              (by rw [List.length_take, List.length_append, encSigned_length]; omega)]
        · rw [List.take_append_eq_append_take, encSigned_length,
            List.take_of_length_le (by rw [encSigned_length]; omega),
            readInt_enc (l.length : Int)
              (by simp only [isI32, Bool.and_eq_true, decide_eq_true_eq]; omega) _]
          simp only []
          rw [usizeOf_natCast _ (by omega)]
          rw [readN_tr readLongArray encLongArray l
            (fun x hx r2 => by
              have hx2 := List.all_eq_true.mp hall x hx
              rw [Bool.and_eq_true] at hx2
              exact readLongArray_rt x hx2.1 hx2.2 r2)
            (fun x hx i hi => by
              have hx2 := List.all_eq_true.mp hall x hx
              rw [Bool.and_eq_true] at hx2
              exact readLongArray_tr x hx2.1 hx2.2 i hi)
            (j - 4) (by omega)]

  | .StrList l, hl, hwf, k, hk, fuel => by
    rw [wfValue, Bool.and_eq_true] at hwf
    obtain ⟨hlen, hall⟩ := hwf
    simp only [wfLen, decide_eq_true_eq] at hlen
    cases fuel with
    | zero => rfl
    | succ f =>
      cases k with
      | zero =>
        rw [List.take_zero]
        rfl
      | succ j =>
        have hke : j < 4 + (encList encStr l).length := by
          rw [encodePayload, List.length_cons, List.length_append, encSigned_length] at hk
          omega
        rw [encodePayload, List.take_succ_cons, parseList]
        simp only [readTag, Ty.tryFrom]
        rcases lt_or_ge j 4 with hj | hj
        · rw [show readInt = readSigned 4 from rfl,
            readSigned_short_input 4 _
              (by rw [List.length_take, List.length_append, encSigned_length]; omega)]
        · rw [List.take_append_eq_append_take, encSigned_length,
            List.take_of_length_le (by rw [encSigned_length]; omega),
            readInt_enc (l.length : Int)
              (by simp only [isI32, Bool.and_eq_true, decide_eq_true_eq]; omega) _]
          simp only []
          rw [usizeOf_natCast _ (by omega)]
          rw [readN_tr readStr encStr l
            (fun x hx r2 => readStr_rt x (List.all_eq_true.mp hall x hx) r2)
            (fun x hx i hi => readStr_tr x (List.all_eq_true.mp hall x hx) i hi)
            (j - 4) (by omega)]

  | .ListList l, hl, hwf, k, hk, fuel => by
    rw [wfValue, Bool.and_eq_true] at hwf
    obtain ⟨hlen, helems⟩ := hwf
    simp only [wfLen, decide_eq_true_eq] at hlen
    cases fuel with
    | zero => rfl
    | succ f =>
      cases k with
      | zero =>
        rw [List.take_zero]
        rfl
      | succ j =>
        have hke : j < 4 + (encValues l).length := by
          rw [encodePayload, List.length_cons, List.length_append, encSigned_length] at hk
          omega
        rw [encodePayload, List.take_succ_cons, parseList]
        simp only [readTag, Ty.tryFrom]
        rcases lt_or_ge j 4 with hj | hj
        · rw [show readInt = readSigned 4 from rfl,
            readSigned_short_input 4 _
              (by rw [List.length_take, List.length_append, encSigned_length]; omega)]
        · rw [List.take_append_eq_append_take, encSigned_length,
            List.take_of_length_le (by rw [encSigned_length]; omega),
            readInt_enc (l.length : Int)
              (by simp only [isI32, Bool.and_eq_true, decide_eq_true_eq]; omega) _]
          simp only []
          rw [usizeOf_natCast _ (by omega)]
          rw [values_tr l helems (j - 4) (by omega) f]

  | .CompoundList l, hl, hwf, k, hk, fuel => by
    rw [wfValue, Bool.and_eq_true] at hwf
    obtain ⟨hlen, helems⟩ := hwf
    simp only [wfLen, decide_eq_true_eq] at hlen
    cases fuel with
    | zero => rfl
    | succ f =>
      cases k with
      | zero =>
        rw [List.take_zero]
        rfl
      | succ j =>
        have hke : j < 4 + (encCompounds l).length := by
          rw [encodePayload, List.length_cons, List.length_append, encSigned_length] at hk
          omega
        rw [encodePayload, List.take_succ_cons, parseList]
        simp only [readTag, Ty.tryFrom]
        rcases lt_or_ge j 4 with hj | hj
        · rw [show readInt = readSigned 4 from rfl,
            readSigned_short_input 4 _
              (by rw [List.length_take, List.length_append, encSigned_length]; omega)]
        · rw [List.take_append_eq_append_take, encSigned_length,
            List.take_of_length_le (by rw [encSigned_length]; omega),
            readInt_enc (l.length : Int)
              (by simp only [isI32, Bool.and_eq_true, decide_eq_true_eq]; omega) _]
          simp only []
          rw [usizeOf_natCast _ (by omega)]
          rw [comps_tr l helems (j - 4) (by omega) f]

termination_by v => 2 * sizeOf v

theorem entries_tr : ∀ (c : Compound), wfEntriesEach c = true →
    ∀ (k : Nat), k ≤ (encEntries c).length → ∀ (fuel : Nat) (acc : Compound),
    readCompoundAux fuel acc ((encEntries c).take k) = .error .UnexpectedEnd
  | [], hwf, k, hk, fuel, acc => by
    have hk0 : k = 0 := by
      rw [encEntries] at hk
      simpa using hk
    subst hk0
    rw [List.take_zero]
    cases fuel with
    | zero => rfl
    | succ f => rfl
  | (s, v) :: tl, hwf, k, hk, fuel, acc => by
    rw [wfEntriesEach, Bool.and_eq_true, Bool.and_eq_true] at hwf
    obtain ⟨⟨hs, hv⟩, htl⟩ := hwf
    cases fuel with
    | zero => rfl
    | succ f =>
      cases k with
      | zero =>
        rw [List.take_zero]
        rfl
      | succ j =>
        have hlen1 : (encStr s).length = 2 + s.length := by
          rw [encStr, List.length_append, beBytes_length]
        have hke : j ≤ (encStr s).length + (encodePayload v).length + (encEntries tl).length := by
          rw [encEntries] at hk
          simp [List.length_append] at hk
          omega
        rw [encEntries]
        simp only [List.cons_append, List.append_assoc]
        rw [List.take_succ_cons, readCompoundAux, readTag, tryFrom_tagByte]
        simp only []
        rw [if_neg (tyOf_ne_End v)]
        rcases lt_or_ge j (encStr s).length with hj | hj
        · rw [List.take_append_eq_append_take, show j - (encStr s).length = 0 by omega,
            List.take_zero, List.append_nil, readStr_tr s hs j hj]
        · rw [List.take_append_eq_append_take, List.take_of_length_le hj, readStr_rt s hs _]
          simp only []
          rcases lt_or_ge (j - (encStr s).length) (encodePayload v).length with hj2 | hj2
          · rw [List.take_append_eq_append_take,
              show j - (encStr s).length - (encodePayload v).length = 0 by omega,
              List.take_zero, List.append_nil, pvwt_tr v hv _ hj2 f]
          · rw [List.take_append_eq_append_take, List.take_of_length_le hj2]
            rcases pvwt_rtue v hv f
              ((encEntries tl).take (j - (encStr s).length - (encodePayload v).length)) with h1 | h1
            · rw [h1]
              simp only []
              exact entries_tr tl htl _ (by omega) f (Compound.insert s v acc)
            · rw [h1]
termination_by c => 2 * sizeOf c

theorem values_tr : ∀ (l : List Value), wfListElems l = true →
    ∀ (k : Nat), k < (encValues l).length → ∀ (fuel : Nat),
    parseListList fuel l.length ((encValues l).take k) = .error .UnexpectedEnd
  | [], h, k, hk, fuel => by
    rw [encValues] at hk
    exact absurd hk (by simp)
  | v :: tl, h, k, hk, fuel => by
    rw [wfListElems, Bool.and_eq_true, Bool.and_eq_true] at h
    obtain ⟨⟨hlv, hv⟩, htl⟩ := h
    cases fuel with
    | zero => rfl
    | succ f =>
      rw [encValues, List.length_cons, parseListList]
      rcases lt_or_ge k (encodePayload v).length with hx | hx
      · rw [List.take_append_eq_append_take, show k - (encodePayload v).length = 0 by omega,
          List.take_zero, List.append_nil, plist_tr v hlv hv k hx f]
      · have hke : k - (encodePayload v).length < (encValues tl).length := by
          rw [encValues, List.length_append] at hk
          omega
        rw [List.take_append_eq_append_take, List.take_of_length_le hx]
        rcases plist_rtue v hlv hv f
          ((encValues tl).take (k - (encodePayload v).length)) with h1 | h1
        · rw [h1]
          simp only []
          rw [values_tr tl htl _ hke f]
        · rw [h1]
termination_by l => 2 * sizeOf l

theorem comps_tr : ∀ (l : List (List (RStr × Value))), wfComps l = true →
    ∀ (k : Nat), k < (encCompounds l).length → ∀ (fuel : Nat),
    parseCompoundList fuel l.length ((encCompounds l).take k) = .error .UnexpectedEnd
  | [], h, k, hk, fuel => by
    rw [encCompounds] at hk
    exact absurd hk (by simp)
  | c :: tl, h, k, hk, fuel => by
    rw [wfComps, Bool.and_eq_true, Bool.and_eq_true] at h
    obtain ⟨⟨hc, hsort⟩, htl⟩ := h
    cases fuel with
    | zero => rfl
    | succ f =>
      rw [encCompounds, List.length_cons, parseCompoundList]
      rcases lt_or_ge k ((encEntries c).length + 1) with hx | hx
      · have hz1 : k - (encEntries c ++ [0]).length = 0 := by
          rw [List.length_append, List.length_singleton]
          omega
        have hz2 : k - (encEntries c).length = 0 := by omega
        have h1 : ((encEntries c ++ [0]) ++ encCompounds tl).take k = (encEntries c).take k := by
          rw [List.take_append_eq_append_take, hz1, List.take_zero, List.append_nil,
            List.take_append_eq_append_take, hz2, List.take_zero, List.append_nil]
        rw [h1, entries_tr c hc k (by omega) f []]
      · have hke : k - ((encEntries c).length + 1) < (encCompounds tl).length := by
          rw [encCompounds, List.length_append, List.length_append, List.length_singleton] at hk
          omega
        have hz1 : (encEntries c ++ [0]).length = (encEntries c).length + 1 := by
          rw [List.length_append, List.length_singleton]
        have h1 : ((encEntries c ++ [0]) ++ encCompounds tl).take k =
            encEntries c ++ 0 :: (encCompounds tl).take (k - ((encEntries c).length + 1)) := by
          rw [List.take_append_eq_append_take, List.take_of_length_le (by rw [hz1]; omega), hz1,
            List.append_assoc, List.singleton_append]

        rw [h1]
        rcases entries_rtue c hc f []
          ((encCompounds tl).take (k - ((encEntries c).length + 1))) with h2 | h2
        · rw [h2]
          simp only []
          rw [comps_tr tl htl _ hke f]
        · rw [h2]
termination_by l => 2 * sizeOf l

end

/-- Processing an encoded run of complete entries at top level either reaches
the rest of the stream (with some remaining fuel and accumulated record) or
has already failed with `UnexpectedEnd`. -/
theorem top_rtue : ∀ (c : Compound), wfEntriesEach c = true →
    ∀ (fuel : Nat) (acc : Compound) (rest : List Nat),
    (∃ (f2 : Nat) (acc2 : Compound),
      parseTopAux fuel acc (encEntries c ++ rest) = parseTopAux f2 acc2 rest) ∨
    parseTopAux fuel acc (encEntries c ++ rest) = .error .UnexpectedEnd
  | [], hwf, fuel, acc, rest => by
    left
    exact ⟨fuel, acc, by rw [encEntries, List.nil_append]⟩
  | (s, v) :: tl, hwf, fuel, acc, rest => by
    cases fuel with
    | zero => exact Or.inr rfl
    | succ f =>
      rw [wfEntriesEach, Bool.and_eq_true, Bool.and_eq_true] at hwf
      obtain ⟨⟨hs, hv⟩, htl⟩ := hwf
      rw [encEntries]
      simp only [List.cons_append, List.append_assoc]
      rw [parseTopAux, readTag, tryFrom_tagByte]
      simp only []
      rw [readStr_rt s hs (encodePayload v ++ (encEntries tl ++ rest))]
      simp only []
      rcases pvwt_rtue v hv f (encEntries tl ++ rest) with h1 | h1
      · rw [h1]
        simp only []
        exact top_rtue tl htl f (Compound.insert s v acc) rest
      · right
        rw [h1]

/-- A top-level entry whose payload is cut off: the tag and full name read
fine, then the payload parser hits the truncation and the loop propagates
`UnexpectedEnd`. -/
theorem top_truncated_entry (n : RStr) (hn : wfStr n = true) (v : Value)
    (hv : wfValue v = true) (k : Nat) (hk : k < (encodePayload v).length)
    (fuel : Nat) (acc : Compound) :
    parseTopAux fuel acc ((tagByte v :: encStr n) ++ (encodePayload v).take k) =
      .error .UnexpectedEnd := by
  cases fuel with
  | zero => rfl
  | succ f =>
    simp only [List.cons_append]
    rw [parseTopAux, readTag, tryFrom_tagByte]
    simp only []
    rw [readStr_rt n hn ((encodePayload v).take k)]
    simp only []
    rw [pvwt_tr v hv k hk f]

/-! No successful parse ever builds an empty `ByteList`: the invariant family
for claim C10, by induction on fuel over all the mutually recursive parsers. -/

theorem noEBLEntries_insert (k : RStr) (v : Value) (c : Compound)
    (hc : noEmptyByteListEntries c = true) (hv : noEmptyByteList v = true) :
    noEmptyByteListEntries (Compound.insert k v c) = true := by
  induction c with
  | nil => simp [Compound.insert, noEmptyByteListEntries, hv]
  | cons e tl ih =>
    obtain ⟨k2, v2⟩ := e
    rw [noEmptyByteListEntries, Bool.and_eq_true] at hc
    rw [Compound.insert]
    by_cases h1 : strLt k k2 = true
    · rw [if_pos h1, noEmptyByteListEntries, noEmptyByteListEntries]
      simp [hv, hc.1, hc.2]
    · rw [if_neg h1]
      by_cases h2 : k = k2
      · rw [if_pos h2, noEmptyByteListEntries]
        simp [hv, hc.2]
      · rw [if_neg h2, noEmptyByteListEntries]
        simp [hc.1, ih hc.2]

theorem parser_noEBL : ∀ (fuel : Nat),
    (∀ (t : Ty) (input : List Nat) (v : Value) (r : List Nat),
      parseValueWithTag fuel t input = .ok (v, r) → noEmptyByteList v = true) ∧
    (∀ (input : List Nat) (v : Value) (r : List Nat),
      parseList fuel input = .ok (v, r) → noEmptyByteList v = true) ∧
    (∀ (n : Nat) (input : List Nat) (l : List Value) (r : List Nat),
      parseListList fuel n input = .ok (l, r) → noEmptyByteListValues l = true) ∧
    (∀ (n : Nat) (input : List Nat) (l : List (List (RStr × Value))) (r : List Nat),
      parseCompoundList fuel n input = .ok (l, r) → noEmptyByteListComps l = true) ∧
    (∀ (acc : Compound) (input : List Nat) (c : Compound) (r : List Nat),
      noEmptyByteListEntries acc = true → readCompoundAux fuel acc input = .ok (c, r) →
        noEmptyByteListEntries c = true) := by
  intro fuel
  induction fuel with
  | zero =>
    refine ⟨?_, ?_, ?_, ?_, ?_⟩
    · intro t input v r h
      rw [parseValueWithTag] at h
      exact Except.noConfusion h
    · intro input v r h
      rw [parseList] at h
      exact Except.noConfusion h
    · intro n input l r h
      rw [parseListList] at h
      exact Except.noConfusion h
    · intro n input l r h
      rw [parseCompoundList] at h
      exact Except.noConfusion h
    · intro acc input c r hacc h
      rw [readCompoundAux] at h
      exact Except.noConfusion h
  | succ f ih =>
    obtain ⟨ih1, ih2, ih3, ih4, ih5⟩ := ih
    refine ⟨?_, ?_, ?_, ?_, ?_⟩
    · intro t input v r h
      cases t with
      | End =>
        rw [parseValueWithTag] at h
        exact Except.noConfusion h
      | Byte =>
        rw [parseValueWithTag] at h
        rcases hb : readByte input with e | ⟨x, r1⟩
        · rw [hb] at h
          exact Except.noConfusion h
        · rw [hb] at h
          simp only [] at h
          cases h
          rfl
      | Short =>
        rw [parseValueWithTag] at h
        rcases hb : readShort input with e | ⟨x, r1⟩
        · rw [hb] at h
          exact Except.noConfusion h
        · rw [hb] at h
          simp only [] at h
          cases h
          rfl
      | Int =>
        rw [parseValueWithTag] at h
        rcases hb : readInt input with e | ⟨x, r1⟩
        · rw [hb] at h
          exact Except.noConfusion h
        · rw [hb] at h
          simp only [] at h
          cases h
          rfl
      | Long =>
        rw [parseValueWithTag] at h
        rcases hb : readLong input with e | ⟨x, r1⟩
        · rw [hb] at h
          exact Except.noConfusion h
        · rw [hb] at h
          simp only [] at h
          cases h
          rfl
      | Float =>
        rw [parseValueWithTag] at h
        rcases hb : readFloat input with e | ⟨x, r1⟩
        · rw [hb] at h
          exact Except.noConfusion h
        · rw [hb] at h
          simp only [] at h
          cases h
          rfl
      | Double =>
        rw [parseValueWithTag] at h
        rcases hb : readDouble input with e | ⟨x, r1⟩
        · rw [hb] at h
          exact Except.noConfusion h
        · rw [hb] at h
          simp only [] at h
          cases h
          rfl
      | ByteArray =>
        rw [parseValueWithTag] at h
        rcases hb : readByteArray input with e | ⟨x, r1⟩
        · rw [hb] at h
          exact Except.noConfusion h
        · rw [hb] at h
          simp only [] at h
          cases h
          rfl
      | Str =>
        rw [parseValueWithTag] at h
        rcases hb : readStr input with e | ⟨x, r1⟩
        · rw [hb] at h
          exact Except.noConfusion h
        · rw [hb] at h
          simp only [] at h
          cases h
          rfl
      | IntArray =>
        rw [parseValueWithTag] at h
        rcases hb : readIntArray input with e | ⟨x, r1⟩
        · rw [hb] at h
          exact Except.noConfusion h
        · rw [hb] at h
          simp only [] at h
          cases h
          rfl
      | LongArray =>
        rw [parseValueWithTag] at h
        rcases hb : readLongArray input with e | ⟨x, r1⟩
        · rw [hb] at h
          exact Except.noConfusion h
        · rw [hb] at h
          simp only [] at h
          cases h
          rfl
      | List =>
        rw [parseValueWithTag] at h
        exact ih2 input v r h
      | Compound =>
        rw [parseValueWithTag] at h
        rcases hb : readCompoundAux f [] input with e | ⟨c, r1⟩
        · rw [hb] at h
          exact Except.noConfusion h
        · rw [hb] at h
          simp only [] at h
          cases h
          rw [noEmptyByteList]
          exact ih5 [] input c r rfl hb
    · intro input v r h
      rw [parseList] at h
      rcases ht : readTag input with e | ⟨topt, r1⟩
      · rw [ht] at h
        exact Except.noConfusion h
      · rw [ht] at h
        rcases topt with _ | t
        · simp only [] at h
          exact Except.noConfusion h
        · simp only [] at h
          rcases hi : readInt r1 with e | ⟨sz, r2⟩
          · rw [hi] at h
            exact Except.noConfusion h
          · rw [hi] at h
            simp only [] at h
            cases t with
            | End =>
              cases h
              rfl
            | Byte =>
              by_cases h0 : usizeOf sz = 0
              · rw [if_pos h0] at h
                cases h
                rfl
              · rw [if_neg h0] at h
                rcases hn : readN readByte (usizeOf sz) r2 with e | ⟨l, r3⟩
                · rw [hn] at h
                  exact Except.noConfusion h
                · rw [hn] at h
                  simp only [] at h
                  cases h
                  have hlen := readN_length readByte (usizeOf sz) r2 l r hn
                  rw [noEmptyByteList]
                  cases l with
                  | nil =>
                    rw [List.length_nil] at hlen
                    exact absurd hlen.symm h0
                  | cons x xs => rfl
            | Short =>
              rcases hn : readN readShort (usizeOf sz) r2 with e | ⟨l, r3⟩
              · rw [hn] at h
                exact Except.noConfusion h
              · rw [hn] at h
                simp only [] at h
                cases h
                rfl
            | Int =>
              rcases hn : readN readInt (usizeOf sz) r2 with e | ⟨l, r3⟩
              · rw [hn] at h
                exact Except.noConfusion h
              · rw [hn] at h
                simp only [] at h
                cases h
                rfl
            | Long =>
              rcases hn : readN readLong (usizeOf sz) r2 with e | ⟨l, r3⟩
              · rw [hn] at h
                exact Except.noConfusion h
              · rw [hn] at h
                simp only [] at h
                cases h
                rfl
            | Float =>
              rcases hn : readN readFloat (usizeOf sz) r2 with e | ⟨l, r3⟩
              · rw [hn] at h
                exact Except.noConfusion h
              · rw [hn] at h
                simp only [] at h
                cases h
                rfl
            | Double =>
              rcases hn : readN readDouble (usizeOf sz) r2 with e | ⟨l, r3⟩
              · rw [hn] at h
                exact Except.noConfusion h
              · rw [hn] at h
                simp only [] at h
                cases h
                rfl
            | ByteArray =>
              rcases hn : readN readByteArray (usizeOf sz) r2 with e | ⟨l, r3⟩
              · rw [hn] at h
                exact Except.noConfusion h
              · rw [hn] at h
                simp only [] at h
                cases h
                rfl
            | Str =>
              rcases hn : readN readStr (usizeOf sz) r2 with e | ⟨l, r3⟩
              · rw [hn] at h
                exact Except.noConfusion h
              · rw [hn] at h
                simp only [] at h
                cases h
                rfl
            | IntArray =>
              rcases hn : readN readIntArray (usizeOf sz) r2 with e | ⟨l, r3⟩
              · rw [hn] at h
                exact Except.noConfusion h
              · rw [hn] at h
                simp only [] at h
                cases h
                rfl
            | LongArray =>
              rcases hn : readN readLongArray (usizeOf sz) r2 with e | ⟨l, r3⟩
              · rw [hn] at h
                exact Except.noConfusion h
              · rw [hn] at h
                simp only [] at h
                cases h
                rfl
            | List =>
              rcases hn : parseListList f (usizeOf sz) r2 with e | ⟨l, r3⟩
              · rw [hn] at h
                exact Except.noConfusion h
              · rw [hn] at h
                simp only [] at h
                cases h
                rw [noEmptyByteList]
                exact ih3 _ _ _ _ hn
            | Compound =>
              rcases hn : parseCompoundList f (usizeOf sz) r2 with e | ⟨l, r3⟩
              · rw [hn] at h
                exact Except.noConfusion h
              · rw [hn] at h
                simp only [] at h
                cases h
                rw [noEmptyByteList]
                exact ih4 _ _ _ _ hn
    · intro n input l r h
      cases n with
      | zero =>
        rw [parseListList] at h
        cases h
        rfl
      | succ m =>
        rw [parseListList] at h
        rcases h1 : parseList f input with e | ⟨v, r1⟩
        · rw [h1] at h
          exact Except.noConfusion h
        · rw [h1] at h
          simp only [] at h
          rcases h2 : parseListList f m r1 with e | ⟨l2, r2⟩
          · rw [h2] at h
            exact Except.noConfusion h
          · rw [h2] at h
            simp only [] at h
            cases h
            rw [noEmptyByteListValues]
            simp [ih2 _ _ _ h1, ih3 _ _ _ _ h2]
    · intro n input l r h
      cases n with
      | zero =>
        rw [parseCompoundList] at h
        cases h
        rfl
      | succ m =>
        rw [parseCompoundList] at h
        rcases h1 : readCompoundAux f [] input with e | ⟨c, r1⟩
        · rw [h1] at h
          exact Except.noConfusion h
        · rw [h1] at h
          simp only [] at h
          rcases h2 : parseCompoundList f m r1 with e | ⟨l2, r2⟩
          · rw [h2] at h
            exact Except.noConfusion h
          · rw [h2] at h
            simp only [] at h
            cases h
            rw [noEmptyByteListComps]
            simp [ih5 [] input c r1 rfl h1, ih4 _ _ _ _ h2]
    · intro acc input c r hacc h
      rw [readCompoundAux] at h
      rcases ht : readTag input with e | ⟨topt, r1⟩
      · rw [ht] at h
        exact Except.noConfusion h
      · rw [ht] at h
        rcases topt with _ | t
        · simp only [] at h
          exact Except.noConfusion h
        · simp only [] at h
          by_cases hE : t = .End
          · rw [if_pos hE] at h
            cases h
            exact hacc
          · rw [if_neg hE] at h
            rcases hs : readStr r1 with e | ⟨name, r2⟩
            · rw [hs] at h
              exact Except.noConfusion h
            · rw [hs] at h
              simp only [] at h
              rcases hv : parseValueWithTag f t r2 with e | ⟨v, r3⟩
              · rw [hv] at h
                exact Except.noConfusion h
              · rw [hv] at h
                simp only [] at h
                exact ih5 _ _ _ _ (noEBLEntries_insert name v acc hacc (ih1 _ _ _ _ hv)) h

theorem parseTop_noEBL : ∀ (fuel : Nat) (acc : Compound) (input : List Nat) (c : Compound),
    noEmptyByteListEntries acc = true → parseTopAux fuel acc input = .ok c →
    noEmptyByteListEntries c = true := by
  intro fuel
  induction fuel with
  | zero =>
    intro acc input c hacc h
    rw [parseTopAux] at h
    exact Except.noConfusion h
  | succ f ih =>
    intro acc input c hacc h
    rw [parseTopAux] at h
    rcases ht : readTag input with e | ⟨topt, r1⟩
    · rw [ht] at h
      exact Except.noConfusion h
    · rw [ht] at h
      rcases topt with _ | t
      · simp only [] at h
        cases h
        exact hacc
      · simp only [] at h
        rcases hs : readStr r1 with e | ⟨name, r2⟩
        · rw [hs] at h
          exact Except.noConfusion h
        · rw [hs] at h
          simp only [] at h
          rcases hv : parseValueWithTag f t r2 with e | ⟨v, r3⟩
          · rw [hv] at h
            exact Except.noConfusion h
          · rw [hv] at h
            simp only [] at h
            exact ih _ _ _ (noEBLEntries_insert name v acc hacc ((parser_noEBL f).1 _ _ _ _ hv)) h

/-- C1 (counterexample): the round-trip claim fails as stated: the tree
`{"x": ByteList []}` encodes per the wire grammar to a byte-tagged list with
count 0, which `parse` decodes to the `EmptyByteList` sentinel, not back to
the original `ByteList []`. -/
theorem claim_C1_counterexample :
    parse (encEntries [([0x78], Value.ByteList [])]) ≠
      .ok (.Compound [([0x78], .ByteList [])]) ∧
    parse (encEntries [([0x78], Value.ByteList [])]) =
      .ok (.Compound [([0x78], .EmptyByteList)]) := by
  constructor
  · intro h
    rw [show parse (encEntries [([0x78], Value.ByteList [])]) =
        .ok (.Compound [([0x78], .EmptyByteList)]) from rfl] at h
    simp at h
  · rfl

/-- C1 (amended): for every well-formed `Value` tree — wire-representable,
with compounds in their `BTreeMap` sorted-key form, no empty `ByteList` node,
and list-of-list elements themselves list variants — encoding it with the
reference encoder of the §4.2 wire grammar and running `parse` on the bytes
yields exactly the original tree. -/
theorem claim_C1_theorem (c : Compound) (h : wfValue (.Compound c) = true) :
    parse (encEntries c) = .ok (.Compound c) := by
  rw [wfValue, Bool.and_eq_true] at h
  rw [parse, top_rt c h.1 ((encEntries c).length + 1) [] (le_refl _),
    foldIns_nil_sorted c h.2]

/-- C1 (witness): the amended round trip at the concrete tree `{"x": Byte 42}`. -/
theorem claim_C1_witness :
    wfValue (.Compound [([0x78], .Byte 42)]) = true ∧
    parse (encEntries [([0x78], .Byte 42)]) = .ok (.Compound [([0x78], .Byte 42)]) :=
  ⟨rfl, claim_C1_theorem [([0x78], .Byte 42)] rfl⟩

/-- C2 (counterexample): the spec's example bytes `0A 00 00 01 00 03 78 00 2A 00`
declare a name length of 3 for the one-byte name "x", so after reading the
3-byte name `78 00 2A` and the payload byte `00`, the stream ends inside the
compound and `parse` fails with `UnexpectedEnd` instead of succeeding. -/
theorem claim_C2_counterexample :
    parse [0x0A, 0x00, 0x00, 0x01, 0x00, 0x03, 0x78, 0x00, 0x2A, 0x00] =
      .error .UnexpectedEnd := rfl

/-- C2 (amended): the example encoded correctly — `0A 00 00 01 00 01 78 2A 00`,
with name length 1 — decodes successfully to a root record with exactly one
entry, the empty-named compound `{"x": Byte 42}`. -/
theorem claim_C2_theorem :
    parse [0x0A, 0x00, 0x00, 0x01, 0x00, 0x01, 0x78, 0x2A, 0x00] =
      .ok (.Compound [([], .Compound [([0x78], .Byte 42)])]) := rfl

/-- C3 (code bug): a string payload with the declared 2-byte length `0x8000`
followed by exactly 32768 content bytes should decode to that 32768-byte
string under the spec's unsigned-length reading, but `read_str` reads the
length with the signed `read_short` and casts it `as usize`, sign-extending
`0x8000` to `2^64 - 32768`; the resulting gigantic read fails with
`UnexpectedEnd`. -/
theorem claim_C3_theorem :
    readStr (0x80 :: 0x00 :: List.replicate 32768 0x61) = .error .UnexpectedEnd :=
  readStr_signedLengthCast (List.replicate 32768 0x61)
    (by rw [List.length_replicate]; norm_num)

/-- C4: an empty input stream decodes successfully to an empty root record,
and end-of-stream at a tag-byte read boundary yields the clean `None` from
`read_tag` rather than an error. -/
theorem claim_C4_theorem :
    parse [] = .ok (.Compound []) ∧ readTag [] = .ok (none, []) := ⟨rfl, rfl⟩

/-- C6: a compound payload with two entries of the same name decodes with the
second entry's value winning and exactly one entry for that name — both when
the duplicate pair sits at the top level of `parse` and when it sits inside a
nested compound payload read by `read_compound`. -/
theorem claim_C6_theorem (n : RStr) (v1 v2 : Value) (hn : wfStr n = true)
    (h1 : wfValue v1 = true) (h2 : wfValue v2 = true) :
    parse (encEntries [(n, v1), (n, v2)]) = .ok (.Compound [(n, v2)]) ∧
    ∀ (fuel : Nat) (r : List Nat), (encEntries [(n, v1), (n, v2)]).length + 1 ≤ fuel →
      readCompoundAux fuel [] (encEntries [(n, v1), (n, v2)] ++ 0 :: r) =
        .ok ([(n, v2)], r) := by
  have hwf : wfEntriesEach [(n, v1), (n, v2)] = true := by
    rw [wfEntriesEach, wfEntriesEach, wfEntriesEach]
    simp [hn, h1, h2]
  have hfold : foldIns [] [(n, v1), (n, v2)] = [(n, v2)] := by
    show Compound.insert n v2 (Compound.insert n v1 []) = [(n, v2)]
    exact insert_insert_same n v1 v2
  constructor
  · rw [parse, top_rt [(n, v1), (n, v2)] hwf _ [] (le_refl _), hfold]
  · intro fuel r hfuel
    rw [entries_rt [(n, v1), (n, v2)] hwf fuel [] r hfuel, hfold]

/-- C6 (witness): duplicate name "x" with `Byte 1` then `Byte 2` decodes to the
single entry `{"x": Byte 2}` at top level and inside a compound payload. -/
theorem claim_C6_witness :
    parse (encEntries [([0x78], .Byte 1), ([0x78], .Byte 2)]) =
      .ok (.Compound [([0x78], .Byte 2)]) ∧
    readCompoundAux 11 [] (encEntries [([0x78], .Byte 1), ([0x78], .Byte 2)] ++ 0 :: []) =
      .ok ([([0x78], .Byte 2)], []) :=
  ⟨(claim_C6_theorem [0x78] (.Byte 1) (.Byte 2) rfl rfl rfl).1,
    (claim_C6_theorem [0x78] (.Byte 1) (.Byte 2) rfl rfl rfl).2 11 [] (by decide)⟩

/-- C7: wherever a tag byte is read — at top level, inside a compound, or as a
list's element tag — any byte above 12 fails with `UnknownTag`, while bytes
0 through 12 are accepted by `Type::try_from` and mapped to the thirteen
types in order. -/
theorem claim_C7_theorem :
    (∀ (b : Nat) (r : List Nat), 12 < b → b ≤ 255 →
      Ty.tryFrom b = .error .UnknownTag ∧
      parse (b :: r) = .error .UnknownTag ∧
      (∀ (fuel : Nat) (acc : Compound), readCompoundAux (fuel + 1) acc (b :: r) =
        .error .UnknownTag) ∧
      (∀ fuel : Nat, parseList (fuel + 1) (b :: r) = .error .UnknownTag)) ∧
    (Ty.tryFrom 0 = .ok .End ∧ Ty.tryFrom 1 = .ok .Byte ∧ Ty.tryFrom 2 = .ok .Short ∧
      Ty.tryFrom 3 = .ok .Int ∧ Ty.tryFrom 4 = .ok .Long ∧ Ty.tryFrom 5 = .ok .Float ∧
      Ty.tryFrom 6 = .ok .Double ∧ Ty.tryFrom 7 = .ok .ByteArray ∧
      Ty.tryFrom 8 = .ok .Str ∧ Ty.tryFrom 9 = .ok .List ∧ Ty.tryFrom 10 = .ok .Compound ∧
      Ty.tryFrom 11 = .ok .IntArray ∧ Ty.tryFrom 12 = .ok .LongArray) := by
  constructor
  · intro b r hb _
    obtain ⟨n, rfl⟩ : ∃ n, b = n + 13 := ⟨b - 13, by omega⟩
    exact ⟨rfl, rfl, fun fuel acc => rfl, fun fuel => rfl⟩
  · exact ⟨rfl, rfl, rfl, rfl, rfl, rfl, rfl, rfl, rfl, rfl, rfl, rfl, rfl⟩

/-- C7 (witness): tag byte 13 is rejected with `UnknownTag` at the top level. -/
theorem claim_C7_witness : parse [13] = .error .UnknownTag :=
  (claim_C7_theorem.1 13 [] (by omega) (by omega)).2.1

/-- C8: a list payload whose element tag is byte (1) and whose 4-byte count is
zero decodes to the distinguished `EmptyByteList` sentinel, not to a
zero-length `ByteList`. -/
theorem claim_C8_theorem (fuel : Nat) (r : List Nat) :
    parseList (fuel + 1) (1 :: 0 :: 0 :: 0 :: 0 :: r) = .ok (.EmptyByteList, r) := by
  have h4 : readInt (0 :: 0 :: 0 :: 0 :: r) = .ok (0, r) := by
    have hx : readExact 4 ([0, 0, 0, 0] ++ r) = .ok ([0, 0, 0, 0], r) := by
      have := readExact_append [0, 0, 0, 0] r
      simpa using this
    rw [show readInt = readSigned 4 from rfl,
      show (0 : Nat) :: 0 :: 0 :: 0 :: r = [0, 0, 0, 0] ++ r from rfl, readSigned, hx]
    rfl
  rw [parseList]
  simp only [readTag, Ty.tryFrom]
  rw [h4]
  simp only []
  rw [show usizeOf 0 = 0 from rfl, if_pos rfl]

/-- C9: a list payload whose element tag is the terminator (0) decodes to the
`EndList` sentinel whatever the four count bytes hold. -/
theorem claim_C9_theorem (fuel : Nat) (b3 b2 b1 b0 : Nat) (r : List Nat) :
    parseList (fuel + 1) (0 :: b3 :: b2 :: b1 :: b0 :: r) = .ok (.EndList, r) := by
  have h4 : readInt (b3 :: b2 :: b1 :: b0 :: r) =
      .ok (signed 4 (beNat [b3, b2, b1, b0]), r) := by
    have hx : readExact 4 ([b3, b2, b1, b0] ++ r) = .ok ([b3, b2, b1, b0], r) := by
      have := readExact_append [b3, b2, b1, b0] r
      simpa using this
    rw [show readInt = readSigned 4 from rfl,
      show b3 :: b2 :: b1 :: b0 :: r = [b3, b2, b1, b0] ++ r from rfl, readSigned, hx]
  rw [parseList]
  simp only [readTag, Ty.tryFrom]
  rw [h4]

/-- C5: truncating the stream strictly inside a structured payload — a string,
array, list, or compound (in particular, end-of-stream inside a compound
before its terminator) — makes `parse` fail with `UnexpectedEnd`, never
returning a wrong value; here the truncated entry may be preceded by any run
of complete well-formed entries. -/
theorem claim_C5_theorem (c : Compound) (hc : wfEntriesEach c = true) (n : RStr)
    (hn : wfStr n = true) (v : Value) (hv : wfValue v = true)
    (hstruct : tyOf v = .ByteArray ∨ tyOf v = .Str ∨ tyOf v = .List ∨
      tyOf v = .Compound ∨ tyOf v = .IntArray ∨ tyOf v = .LongArray)
    (k : Nat) (hk : k < (encodePayload v).length) :
    parse (encEntries c ++ ((tagByte v :: encStr n) ++ (encodePayload v).take k)) =
      .error .UnexpectedEnd := by
  rw [parse]
  rcases top_rtue c hc
    ((encEntries c ++ ((tagByte v :: encStr n) ++ (encodePayload v).take k)).length + 1) []
    ((tagByte v :: encStr n) ++ (encodePayload v).take k) with ⟨f2, acc2, h1⟩ | h1
  · rw [h1, top_truncated_entry n hn v hv k hk f2 acc2]
  · rw [h1]

/-- C5 (witness): a string payload declaring length 1 but truncated before its
content byte (stream `08 00 00 00 00 01` cut to `08 00 00 00 00`... here the
entry `08 00 00` plus the first length byte only) fails with `UnexpectedEnd`. -/
theorem claim_C5_witness : parse [8, 0, 0, 0] = .error .UnexpectedEnd :=
  claim_C5_theorem [] rfl [] rfl (.Str [97]) rfl (Or.inr (Or.inl rfl)) 1 (by decide)


/-- C10: a tree returned by a successful `parse` never contains a `ByteList`
node with an empty element vector: the zero-count byte-tag case is diverted to
the `EmptyByteList` sentinel before `parse_byte_list` runs, and every
`parse_byte_list` call builds exactly its strictly positive count. -/
theorem claim_C10_theorem (input : List Nat) (v : Value) (h : parse input = .ok v) :
    noEmptyByteList v = true := by
  rw [parse] at h
  rcases htop : parseTopAux (input.length + 1) [] input with e | c
  · rw [htop] at h
    exact Except.noConfusion h
  · rw [htop] at h
    simp only [] at h
    cases h
    rw [noEmptyByteList]
    exact parseTop_noEBL (input.length + 1) [] input c rfl htop

/-- C10 (witness): the invariant at the concrete successful parse of
`09 00 01 78 01 00 00 00 02 05 07`, a byte list of length 2. -/
theorem claim_C10_witness :
    noEmptyByteList (.Compound [([0x78], .ByteList [5, 7])]) = true :=
  claim_C10_theorem [0x09, 0x00, 0x01, 0x78, 0x01, 0x00, 0x00, 0x00, 0x02, 0x05, 0x07]
    (.Compound [([0x78], .ByteList [5, 7])]) rfl

end RawNbt
